import Mathlib

/-!
Verification of the Verilog structural parser and hierarchical instance
counter (`parser.py`): data model (Design, Module, Net, Instance,
Argument), the memoized recursive instance counter, the regex-driven
scanner, and the recursive-descent parser over a one-token-lookahead
cursor.  Mutable state (the per-Module `cntr` memo cache, the cursor)
is embedded by explicit state passing; the unbounded recursions and
generator loops are embedded with explicit fuel, so that termination
is expressible as existence of sufficient fuel.
-/

namespace VP

/-- Value carried by a token: `int(value)` for NUMBER tokens, the matched
text otherwise (Python stores `str | int`). -/
inductive TokValue where
  | str (s : String)
  | num (n : Nat)
deriving DecidableEq, Repr

/-- `Token = namedtuple('Token', ['type', 'value', 'line', 'column'])`. -/
structure Token where
  kind : String
  value : TokValue
  line : Nat
  column : Nat
deriving DecidableEq, Repr

/-- `class Net`: declaration of a Verilog input, output, or wire. -/
structure Net where
  type : String
  name : String
  msb : Nat
  lsb : Nat
deriving DecidableEq, Repr

/-- `class Argument`: argument of a Verilog module instance. -/
structure Argument where
  param : String
  arg : String
  msb : Nat
  lsb : Nat
deriving DecidableEq, Repr

/-- `class Instance`: Verilog module instance. -/
structure Instance where
  type : String
  name : String
  args : List Argument
deriving DecidableEq, Repr

/-- `class Module`: Verilog module.  The mutable memo field `cntr` is
modelled separately as explicit cache state. -/
structure Module where
  name : String
  params : List String
  nets : List Net
  instances : List Instance
deriving DecidableEq, Repr

/-- `class Design`: holds the parsed modules.  `Design.__init__` builds
`{module.name: module for module in modules}`; the dict is modelled by
keeping the insertion list and performing last-wins lookup (`dictGet`). -/
structure Design where
  modules : List Module
deriving DecidableEq, Repr

/-- Lookup in `{module.name: module for module in modules}`: a later
module with the same name overwrites an earlier one. -/
def dictGet (mods : List Module) (n : String) : Option Module :=
  match mods with
  | [] => none
  | M :: rest =>
    match dictGet rest n with
    | some M' => some M'
    | none => if M.name = n then some M else none

theorem dictGet_name {mods : List Module} {n : String} {M : Module}
    (h : dictGet mods n = some M) : M.name = n := by
  induction mods with
  | nil => simp [dictGet] at h
  | cons M0 rest ih =>
    simp only [dictGet] at h
    cases hr : dictGet rest n with
    | some M' => rw [hr] at h; cases h; exact ih hr
    | none =>
      rw [hr] at h
      by_cases he : M0.name = n
      · simp [he] at h; cases h; exact he
      · simp [he] at h

/-- `modules.get(instance.type)` never returns a module that the design
does not own under its own name. -/
theorem dictGet_self {mods : List Module} {n : String} {M : Module}
    (h : dictGet mods n = some M) : dictGet mods M.name = some M := by
  rw [dictGet_name h]; exact h

/-! ## The memoized instance counter

`Module.count_instances` mutates `self.cntr`; the per-module caches are
modelled as an association list from module name to the current value of
that module's `cntr` object (a multiset of type names, Python `Counter`).
The recursion has no structural bound, so it is given explicit fuel. -/

/-- The per-Module `cntr` fields: `none` (no entry) models `cntr is None`. -/
abbrev Cache := List (String × Multiset String)

def cacheGet (st : Cache) (n : String) : Option (Multiset String) :=
  match st with
  | [] => none
  | (m, v) :: rest => if m = n then some v else cacheGet rest n

def cacheSet (st : Cache) (n : String) (v : Multiset String) : Cache :=
  match st with
  | [] => [(n, v)]
  | (m, w) :: rest => if m = n then (n, v) :: rest else (m, w) :: cacheSet rest n v

@[simp] theorem cacheGet_cacheSet_same (st : Cache) (n : String) (v : Multiset String) :
    cacheGet (cacheSet st n v) n = some v := by
  induction st with
  | nil => simp [cacheGet, cacheSet]
  | cons p rest ih =>
    obtain ⟨m, w⟩ := p
    by_cases h : m = n
    · simp [cacheGet, cacheSet, h]
    · simp [cacheGet, cacheSet, h, ih]

theorem cacheGet_cacheSet_other (st : Cache) {n n' : String} (v : Multiset String)
    (h : n' ≠ n) : cacheGet (cacheSet st n v) n' = cacheGet st n' := by
  have h' : ¬ n = n' := fun e => h e.symm
  induction st with
  | nil => simp [cacheGet, cacheSet, h']
  | cons p rest ih =>
    obtain ⟨m, w⟩ := p
    by_cases hm : m = n
    · subst hm
      simp [cacheGet, cacheSet, h']
    · simp [cacheGet, cacheSet, hm, ih]

/-- One pass of the `for instance in self.instances` loop of
`Module.count_instances`, for owner module name `o`.  Each iteration
performs `self.cntr[instance.type] += 1` and, when `instance.type`
resolves through `modules.get`, `self.cntr += module.count_instances(modules)`
where the recursive call is the supplied `recur`.  The owner's `cntr`
object is the cache entry at `o`. -/
def countStep (recur : Cache → Module → Option (Cache × Multiset String))
    (mods : List Module) : Cache → String → List Instance → Option Cache
  | st, _, [] => some st
  | st, o, inst :: rest =>
    let c := (cacheGet st o).getD 0
    let st1 := cacheSet st o (c + {inst.type})
    match dictGet mods inst.type with
    | none => countStep recur mods st1 o rest
    | some T =>
      match recur st1 T with
      | none => none
      | some (st2, ct) =>
        let c2 := (cacheGet st2 o).getD 0
        countStep recur mods (cacheSet st2 o (c2 + ct)) o rest

/-- `Module.count_instances(self, modules)` with explicit fuel: return the
memoized `cntr` when present (`if self.cntr is not None`), else install the
empty Counter, run the instance loop, and return the resulting `cntr`.
`none` means the fuel ran out (the computation did not finish within
`fuel` nested calls). -/
def countFuel : Nat → List Module → Cache → Module → Option (Cache × Multiset String)
  | 0, _, _, _ => none
  | fuel + 1, mods, st, M =>
    match cacheGet st M.name with
    | some c => some (st, c)
    | none =>
      match countStep (fun st' T => countFuel fuel mods st' T) mods
          (cacheSet st M.name 0) M.name M.instances with
      | none => none
      | some st2 =>
        match cacheGet st2 M.name with
        | some c => some (st2, c)
        | none => none

/-- The value computed by `count_instances` for module `M` of a freshly
parsed design (all caches empty), using fuel that `countFuel_total`
proves sufficient. -/
def countResult (mods : List Module) (M : Module) : Option (Multiset String) :=
  (countFuel (mods.length + 1) mods [] M).map Prod.snd

/-- `Design.count_instances`: `self.modules[module]` raises `KeyError`
(UnknownModule) when the name is absent, modelled by `none`. -/
def Design.count_instances (d : Design) (name : String) : Option (Multiset String) :=
  match dictGet d.modules name with
  | none => none
  | some M => countResult d.modules M

/-! ## The instantiation graph -/

/-- Module name `a` directly instantiates type `b`. -/
def instStep (mods : List Module) (a b : String) : Prop :=
  ∃ M, dictGet mods a = some M ∧ b ∈ M.instances.map Instance.type

/-- No module directly or indirectly instantiates itself. -/
def Acyclic (mods : List Module) : Prop :=
  ∀ a, ¬ Relation.TransGen (instStep mods) a a

/-! ## Termination of the memoized counter

`count_instances` installs the empty Counter into `self.cntr` *before*
iterating, so every nested call either returns a cache entry at once or
permanently shrinks the set of modules whose cache is unset.  The measure
`Ucard` counts design modules with unset cache. -/

theorem isSome_cacheGet_cacheSet {st : Cache} {n : String} (m : String)
    (v : Multiset String) (h : (cacheGet st n).isSome) :
    (cacheGet (cacheSet st m v) n).isSome := by
  by_cases e : n = m
  · subst e; simp
  · rw [cacheGet_cacheSet_other st v e]; exact h

theorem countStep_preserve
    {recur : Cache → Module → Option (Cache × Multiset String)} {mods : List Module}
    (hrec : ∀ st T st' c, recur st T = some (st', c) →
      ∀ n, (cacheGet st n).isSome → (cacheGet st' n).isSome) :
    ∀ (l : List Instance) (st : Cache) (o : String) (st' : Cache),
      countStep recur mods st o l = some st' →
      ∀ n, (cacheGet st n).isSome → (cacheGet st' n).isSome := by
  intro l
  induction l with
  | nil =>
    intro st o st' h n hn
    simp only [countStep] at h
    cases h; exact hn
  | cons inst rest ih =>
    intro st o st' h n hn
    simp only [countStep] at h
    cases hd : dictGet mods inst.type with
    | none =>
      simp only [hd] at h
      exact ih _ o st' h n (isSome_cacheGet_cacheSet _ _ hn)
    | some T =>
      simp only [hd] at h
      cases hr : recur (cacheSet st o ((cacheGet st o).getD 0 + {inst.type})) T with
      | none => simp only [hr] at h; cases h
      | some p =>
        obtain ⟨st2, ct⟩ := p
        simp only [hr] at h
        have h2 := hrec _ _ _ _ hr n (isSome_cacheGet_cacheSet _ _ hn)
        exact ih _ o st' h n (isSome_cacheGet_cacheSet _ _ h2)

theorem countFuel_preserve :
    ∀ (f : Nat) (mods : List Module) (st : Cache) (M : Module) (st' : Cache)
      (c : Multiset String), countFuel f mods st M = some (st', c) →
      ∀ n, (cacheGet st n).isSome → (cacheGet st' n).isSome := by
  intro f
  induction f with
  | zero => intro mods st M st' c h; cases h
  | succ f ih =>
    intro mods st M st' c h n hn
    simp only [countFuel] at h
    cases h1 : cacheGet st M.name with
    | some c0 => simp only [h1] at h; cases h; exact hn
    | none =>
      simp only [h1] at h
      cases h2 : countStep (fun st' T => countFuel f mods st' T) mods
          (cacheSet st M.name 0) M.name M.instances with
      | none => simp only [h2] at h; cases h
      | some st2 =>
        simp only [h2] at h
        have hpres := countStep_preserve (fun a b c d e => ih mods a b c d e) _ _ _ _ h2
        cases h3 : cacheGet st2 M.name with
        | none => simp only [h3] at h; cases h
        | some c2 =>
          simp only [h3] at h
          cases h
          exact hpres n (isSome_cacheGet_cacheSet _ _ hn)

/-- The design's module names (the dict's key set). -/
def keysF (mods : List Module) : Finset String := (mods.map Module.name).toFinset

theorem dictGet_mem_keys {mods : List Module} {n : String} {M : Module}
    (h : dictGet mods n = some M) : n ∈ keysF mods := by
  induction mods generalizing M with
  | nil => simp [dictGet] at h
  | cons M0 rest ih =>
    simp only [dictGet] at h
    cases hr : dictGet rest n with
    | some M' =>
      have := ih hr
      simp only [keysF, List.map_cons, List.toFinset_cons, Finset.mem_insert]
      right
      simpa [keysF] using this
    | none =>
      simp only [hr] at h
      by_cases he : M0.name = n
      · simp [keysF, he]
      · simp [he] at h

/-- Number of design modules whose `cntr` cache is still unset. -/
def Ucard (mods : List Module) (st : Cache) : Nat :=
  ((keysF mods).filter (fun n => cacheGet st n = none)).card

theorem Ucard_le_of_preserve {mods : List Module} {st st' : Cache}
    (h : ∀ n, (cacheGet st n).isSome → (cacheGet st' n).isSome) :
    Ucard mods st' ≤ Ucard mods st := by
  apply Finset.card_le_card
  intro n hn
  simp only [Finset.mem_filter] at hn ⊢
  refine ⟨hn.1, ?_⟩
  cases hc : cacheGet st n with
  | none => rfl
  | some v =>
    have := h n (by simp [hc])
    rw [hn.2] at this
    simp at this

theorem Ucard_set_lt {mods : List Module} {st : Cache} {n0 : String}
    (v : Multiset String) (h0 : cacheGet st n0 = none) (hk : n0 ∈ keysF mods) :
    Ucard mods (cacheSet st n0 v) < Ucard mods st := by
  have hmem : n0 ∈ (keysF mods).filter (fun n => cacheGet st n = none) := by
    simp [Finset.mem_filter, hk, h0]
  have hsub : (keysF mods).filter (fun n => cacheGet (cacheSet st n0 v) n = none) ⊆
      ((keysF mods).filter (fun n => cacheGet st n = none)).erase n0 := by
    intro n hn
    simp only [Finset.mem_filter] at hn
    have hne : n ≠ n0 := by
      intro e; subst e
      rw [cacheGet_cacheSet_same] at hn
      exact Option.noConfusion hn.2
    rw [Finset.mem_erase]
    refine ⟨hne, ?_⟩
    simp only [Finset.mem_filter]
    exact ⟨hn.1, by rw [← cacheGet_cacheSet_other st v hne]; exact hn.2⟩
  have h1 := Finset.card_le_card hsub
  rw [Finset.card_erase_of_mem hmem] at h1
  have h2 : 0 < ((keysF mods).filter (fun n => cacheGet st n = none)).card :=
    Finset.card_pos.mpr ⟨n0, hmem⟩
  unfold Ucard
  omega

/-- The memoized counter terminates on *every* design, cyclic or not:
fuel exceeding the number of modules with unset cache suffices. -/
theorem countFuel_total :
    ∀ (f : Nat) (mods : List Module) (st : Cache) (M : Module),
      dictGet mods M.name = some M → Ucard mods st + 1 ≤ f →
      (countFuel f mods st M).isSome := by
  intro f
  induction f with
  | zero => intro mods st M _ hf; omega
  | succ f ih =>
    intro mods st M hM hf
    simp only [countFuel]
    cases h1 : cacheGet st M.name with
    | some c => simp
    | none =>
      have hkey : M.name ∈ keysF mods := dictGet_mem_keys hM
      have hU1 : Ucard mods (cacheSet st M.name 0) < Ucard mods st :=
        Ucard_set_lt 0 h1 hkey
      have loop : ∀ (l : List Instance) (stc : Cache), Ucard mods stc + 1 ≤ f →
          ∃ st2, countStep (fun st' T => countFuel f mods st' T) mods stc M.name l
              = some st2 ∧
            (∀ n, (cacheGet stc n).isSome → (cacheGet st2 n).isSome) := by
        intro l
        induction l with
        | nil => intro stc _; exact ⟨stc, rfl, fun n hn => hn⟩
        | cons inst rest ihl =>
          intro stc hc
          set stA := cacheSet stc M.name ((cacheGet stc M.name).getD 0 + {inst.type}) with hstA
          have hA : ∀ n, (cacheGet stc n).isSome → (cacheGet stA n).isSome :=
            fun n hn => isSome_cacheGet_cacheSet _ _ hn
          have hUA : Ucard mods stA + 1 ≤ f := by
            have := @Ucard_le_of_preserve mods _ _ hA; omega
          cases hd : dictGet mods inst.type with
          | none =>
            obtain ⟨st2, he, hp⟩ := ihl stA hUA
            refine ⟨st2, ?_, fun n hn => hp n (hA n hn)⟩
            simp only [countStep, hd, ← hstA]
            exact he
          | some T =>
            have hT := ih mods stA T (dictGet_self hd) hUA
            cases hr : countFuel f mods stA T with
            | none => rw [hr] at hT; simp at hT
            | some p =>
              obtain ⟨stB, ct⟩ := p
              have hB : ∀ n, (cacheGet stc n).isSome → (cacheGet stB n).isSome :=
                fun n hn => countFuel_preserve f mods stA T stB ct hr n (hA n hn)
              set stC := cacheSet stB M.name ((cacheGet stB M.name).getD 0 + ct) with hstC
              have hC : ∀ n, (cacheGet stc n).isSome → (cacheGet stC n).isSome :=
                fun n hn => isSome_cacheGet_cacheSet _ _ (hB n hn)
              have hUC : Ucard mods stC + 1 ≤ f := by
                have := @Ucard_le_of_preserve mods _ _ hC; omega
              obtain ⟨st2, he, hp⟩ := ihl stC hUC
              refine ⟨st2, ?_, fun n hn => hp n (hC n hn)⟩
              simp only [countStep, hd, ← hstA, hr, ← hstC]
              exact he
      obtain ⟨st2, he, hp⟩ := loop M.instances (cacheSet st M.name 0) (by omega)
      rw [he]
      have hs2 : (cacheGet st2 M.name).isSome := hp M.name (by simp)
      cases h3 : cacheGet st2 M.name with
      | none => rw [h3] at hs2; simp at hs2
      | some c2 => simp [h3]

/-! ## The unmemoized counting semantics

For the counting invariant, the recursive equation of §4.4 of the spec is
embedded directly, again with fuel: each instance contributes one
occurrence of its type name plus, when the type resolves to a design
module, that module's own recursively computed multiset. -/

def naiveStep (recur : Module → Option (Multiset String)) (mods : List Module) :
    List Instance → Option (Multiset String)
  | [] => some 0
  | inst :: rest =>
    match naiveStep recur mods rest with
    | none => none
    | some q =>
      match dictGet mods inst.type with
      | none => some ({inst.type} + q)
      | some T =>
        match recur T with
        | none => none
        | some ct => some ({inst.type} + ct + q)

def naiveFuel : Nat → List Module → Module → Option (Multiset String)
  | 0, _, _ => none
  | f + 1, mods, M => naiveStep (fun T => naiveFuel f mods T) mods M.instances

/-- `c` is the recursively defined instance multiset of `M`. -/
def NaiveVal (mods : List Module) (M : Module) (c : Multiset String) : Prop :=
  ∃ f, naiveFuel f mods M = some c

theorem naiveStep_mono {recur recur' : Module → Option (Multiset String)}
    {mods : List Module} (h : ∀ T c, recur T = some c → recur' T = some c) :
    ∀ (l : List Instance) (q : Multiset String),
      naiveStep recur mods l = some q → naiveStep recur' mods l = some q := by
  intro l
  induction l with
  | nil => intro q hq; exact hq
  | cons inst rest ih =>
    intro q hq
    simp only [naiveStep] at hq ⊢
    cases h1 : naiveStep recur mods rest with
    | none => simp only [h1] at hq; cases hq
    | some q0 =>
      rw [ih q0 h1]
      simp only [h1] at hq
      cases hd : dictGet mods inst.type with
      | none => simpa only [hd] using hq
      | some T =>
        simp only [hd] at hq ⊢
        cases hr : recur T with
        | none => simp only [hr] at hq; cases hq
        | some ct => rw [h T ct hr]; simpa only [hr] using hq

theorem naiveFuel_mono :
    ∀ (f : Nat) (mods : List Module) (M : Module) (c : Multiset String),
      naiveFuel f mods M = some c → naiveFuel (f + 1) mods M = some c := by
  intro f
  induction f with
  | zero => intro mods M c h; cases h
  | succ f ih =>
    intro mods M c h
    simp only [naiveFuel] at h ⊢
    exact naiveStep_mono (fun T c' h' => ih mods T c' h') _ _ h

theorem naiveFuel_mono_le {f g : Nat} {mods : List Module} {M : Module}
    {c : Multiset String} (hle : f ≤ g) (h : naiveFuel f mods M = some c) :
    naiveFuel g mods M = some c := by
  induction hle with
  | refl => exact h
  | step _ ih => exact naiveFuel_mono _ mods M c ih

theorem NaiveVal_unique {mods : List Module} {M : Module} {c c' : Multiset String}
    (h : NaiveVal mods M c) (h' : NaiveVal mods M c') : c = c' := by
  obtain ⟨f, hf⟩ := h
  obtain ⟨g, hg⟩ := h'
  have h1 := naiveFuel_mono_le (Nat.le_max_left f g) hf
  have h2 := naiveFuel_mono_le (Nat.le_max_right f g) hg
  rw [h1] at h2
  exact Option.some.inj h2

/-- `q` is the recursively defined multiset contributed by the instance
list `l`. -/
def NaiveListVal (mods : List Module) (l : List Instance) (q : Multiset String) : Prop :=
  ∃ g, naiveStep (fun T => naiveFuel g mods T) mods l = some q

/-! ## Correctness of the memoization (acyclic designs)

On an acyclic design every finished cache entry holds the module's
canonical recursive count; only the modules currently being expanded
(the set `S`) may hold partial sums. -/

/-- Entries outside the in-progress set `S` hold canonical counts. -/
def CacheInv (mods : List Module) (S : String → Prop) (st : Cache) : Prop :=
  ∀ n c, cacheGet st n = some c →
    S n ∨ ∃ M, dictGet mods n = some M ∧ NaiveVal mods M c

theorem CacheInv_mono {mods : List Module} {S S' : String → Prop} {st : Cache}
    (hss : ∀ n, S n → S' n) (h : CacheInv mods S st) : CacheInv mods S' st := by
  intro n c hc
  rcases h n c hc with hs | hcan
  · exact Or.inl (hss n hs)
  · exact Or.inr hcan

theorem CacheInv_cacheSet {mods : List Module} {S : String → Prop} {st : Cache}
    {n0 : String} (v : Multiset String) (h : CacheInv mods S st) (hn : S n0) :
    CacheInv mods S (cacheSet st n0 v) := by
  intro n c hc
  by_cases he : n = n0
  · subst he; exact Or.inl hn
  · rw [cacheGet_cacheSet_other st v he] at hc
    exact h n c hc

theorem countStep_correct (mods : List Module) (hacyc : Acyclic mods) (f : Nat)
    (IH : ∀ (st : Cache) (M : Module) (S : String → Prop) (st' : Cache)
      (c : Multiset String),
      dictGet mods M.name = some M →
      (∀ n, S n → ¬ Relation.ReflTransGen (instStep mods) M.name n) →
      CacheInv mods S st →
      countFuel f mods st M = some (st', c) →
      NaiveVal mods M c ∧ CacheInv mods S st' ∧ cacheGet st' M.name = some c ∧
        (∀ n, ¬ Relation.ReflTransGen (instStep mods) M.name n →
          cacheGet st' n = cacheGet st n))
    (o : String) (Mo : Module) (hMo : dictGet mods o = some Mo)
    (S' : String → Prop) (hS' : ∀ n, S' n → ¬ Relation.TransGen (instStep mods) o n)
    (hSo : S' o) :
    ∀ (l : List Instance), (∀ i ∈ l, i ∈ Mo.instances) →
      ∀ (st : Cache) (p : Multiset String) (st' : Cache),
      CacheInv mods S' st → cacheGet st o = some p →
      countStep (fun a b => countFuel f mods a b) mods st o l = some st' →
      ∃ q, NaiveListVal mods l q ∧ cacheGet st' o = some (p + q) ∧
        CacheInv mods S' st' ∧
        (∀ n, n ≠ o → ¬ Relation.TransGen (instStep mods) o n →
          cacheGet st' n = cacheGet st n) := by
  intro l
  induction l with
  | nil =>
    intro _ st p st' hinv hp h
    simp only [countStep] at h
    cases h
    exact ⟨0, ⟨0, rfl⟩, by rw [add_zero]; exact hp, hinv, fun n _ _ => rfl⟩
  | cons inst rest ihl =>
    intro hl st p st' hinv hp h
    have hit : inst ∈ Mo.instances := hl inst (by simp)
    have hlr : ∀ i ∈ rest, i ∈ Mo.instances := fun i hi => hl i (by simp [hi])
    simp only [countStep, hp, Option.getD_some] at h
    have hinvA : CacheInv mods S' (cacheSet st o (p + {inst.type})) :=
      CacheInv_cacheSet _ hinv hSo
    have hpA : cacheGet (cacheSet st o (p + {inst.type})) o = some (p + {inst.type}) :=
      cacheGet_cacheSet_same st o _
    cases hd : dictGet mods inst.type with
    | none =>
      simp only [hd] at h
      obtain ⟨q', hqn, hq', hinv', hpres'⟩ :=
        ihl hlr (cacheSet st o (p + {inst.type})) (p + {inst.type}) st' hinvA hpA h
      refine ⟨{inst.type} + q', ?_, ?_, hinv', ?_⟩
      · obtain ⟨g, hg⟩ := hqn
        exact ⟨g, by simp only [naiveStep, hg, hd]⟩
      · rw [← add_assoc]; exact hq'
      · intro n hno hnt
        rw [hpres' n hno hnt]
        exact cacheGet_cacheSet_other st _ hno
    | some T =>
      simp only [hd] at h
      cases hr : countFuel f mods (cacheSet st o (p + {inst.type})) T with
      | none => simp only [hr] at h; cases h
      | some pr =>
        obtain ⟨stB, ct⟩ := pr
        simp only [hr] at h
        have hMT : dictGet mods T.name = some T := dictGet_self hd
        have hstep : instStep mods o T.name :=
          ⟨Mo, hMo, by rw [dictGet_name hd]; exact List.mem_map_of_mem _ hit⟩
        have hSchild : ∀ n, S' n → ¬ Relation.ReflTransGen (instStep mods) T.name n := by
          intro n hn hreach
          exact hS' n hn (Relation.TransGen.head' hstep hreach)
        obtain ⟨hnv, hinvB, hctB, hpresB⟩ := IH _ T S' stB ct hMT hSchild hinvA hr
        have hoB : cacheGet stB o = some (p + {inst.type}) := by
          rw [hpresB o (fun hreach => hacyc o (Relation.TransGen.head' hstep hreach))]
          exact hpA
        simp only [hoB, Option.getD_some] at h
        have hinvC : CacheInv mods S' (cacheSet stB o (p + {inst.type} + ct)) :=
          CacheInv_cacheSet _ hinvB hSo
        have hpC : cacheGet (cacheSet stB o (p + {inst.type} + ct)) o
            = some (p + {inst.type} + ct) := cacheGet_cacheSet_same stB o _
        obtain ⟨q'', hqn'', hq'', hinv'', hpres''⟩ :=
          ihl hlr (cacheSet stB o (p + {inst.type} + ct)) (p + {inst.type} + ct) st'
            hinvC hpC h
        refine ⟨{inst.type} + ct + q'', ?_, ?_, hinv'', ?_⟩
        · obtain ⟨g1, hg1⟩ := hnv
          obtain ⟨g2, hg2⟩ := hqn''
          refine ⟨max g1 g2, ?_⟩
          have hT' : naiveFuel (max g1 g2) mods T = some ct :=
            naiveFuel_mono_le (Nat.le_max_left g1 g2) hg1
          have hrest' : naiveStep (fun T => naiveFuel (max g1 g2) mods T) mods rest
              = some q'' :=
            naiveStep_mono (fun T c hc => naiveFuel_mono_le (Nat.le_max_right g1 g2) hc)
              rest q'' hg2
          simp only [naiveStep, hrest', hd, hT']
        · rw [hq'']
          congr 1
          rw [add_assoc, add_assoc, add_assoc]
        · intro n hno hnt
          have e1 := hpres'' n hno hnt
          have e2 : cacheGet (cacheSet stB o (p + {inst.type} + ct)) n = cacheGet stB n :=
            cacheGet_cacheSet_other stB _ hno
          have e3 : cacheGet stB n = cacheGet (cacheSet st o (p + {inst.type})) n :=
            hpresB n (fun hreach => hnt (Relation.TransGen.head' hstep hreach))
          have e4 : cacheGet (cacheSet st o (p + {inst.type})) n = cacheGet st n :=
            cacheGet_cacheSet_other st _ hno
          rw [e1, e2, e3, e4]

theorem countFuel_correct (mods : List Module) (hacyc : Acyclic mods) :
    ∀ (f : Nat) (st : Cache) (M : Module) (S : String → Prop) (st' : Cache)
      (c : Multiset String),
      dictGet mods M.name = some M →
      (∀ n, S n → ¬ Relation.ReflTransGen (instStep mods) M.name n) →
      CacheInv mods S st →
      countFuel f mods st M = some (st', c) →
      NaiveVal mods M c ∧ CacheInv mods S st' ∧ cacheGet st' M.name = some c ∧
        (∀ n, ¬ Relation.ReflTransGen (instStep mods) M.name n →
          cacheGet st' n = cacheGet st n) := by
  intro f
  induction f with
  | zero => intro st M S st' c _ _ _ h; cases h
  | succ f ih =>
    intro st M S st' c hM hS hinv h
    simp only [countFuel] at h
    cases h1 : cacheGet st M.name with
    | some c0 =>
      simp only [h1] at h
      cases h
      rcases hinv M.name c h1 with hSn | ⟨M', hM', hnv⟩
      · exact absurd Relation.ReflTransGen.refl (hS M.name hSn)
      · rw [hM] at hM'
        cases hM'
        exact ⟨hnv, hinv, h1, fun n _ => rfl⟩
    | none =>
      simp only [h1] at h
      have hS' : ∀ n, (S n ∨ n = M.name) → ¬ Relation.TransGen (instStep mods) M.name n := by
        intro n hn ht
        rcases hn with hn | rfl
        · exact hS n hn ht.to_reflTransGen
        · exact hacyc M.name ht
      have hSo : S M.name ∨ M.name = M.name := Or.inr rfl
      have hinv1 : CacheInv mods (fun n => S n ∨ n = M.name) (cacheSet st M.name 0) :=
        CacheInv_cacheSet _ (CacheInv_mono (fun n hn => Or.inl hn) hinv) hSo
      cases h2 : countStep (fun a b => countFuel f mods a b) mods
          (cacheSet st M.name 0) M.name M.instances with
      | none => simp only [h2] at h; cases h
      | some st2 =>
        simp only [h2] at h
        obtain ⟨q, hqn, hq2, hinv2, hpres2⟩ :=
          countStep_correct mods hacyc f (fun a b c' d e => ih a b c' d e) M.name M hM
            (fun n => S n ∨ n = M.name) hS' hSo
            M.instances (fun i hi => hi) (cacheSet st M.name 0) 0 st2 hinv1
            (cacheGet_cacheSet_same st M.name 0) h2
        simp only [hq2] at h
        cases h
        have hnvM : NaiveVal mods M (0 + q) := by
          obtain ⟨g, hg⟩ := hqn
          refine ⟨g + 1, ?_⟩
          simp only [naiveFuel, hg]
          rw [zero_add]
        refine ⟨hnvM, ?_, hq2, ?_⟩
        · intro n cn hcn
          rcases hinv2 n cn hcn with hSn | hcan
          · rcases hSn with hSn | rfl
            · exact Or.inl hSn
            · rw [hq2] at hcn
              cases hcn
              exact Or.inr ⟨M, hM, hnvM⟩
          · exact Or.inr hcan
        · intro n hre
          have hno : n ≠ M.name := by
            intro e
            subst e
            exact hre Relation.ReflTransGen.refl
          have hnt : ¬ Relation.TransGen (instStep mods) M.name n :=
            fun ht => hre ht.to_reflTransGen
          rw [hpres2 n hno hnt]
          exact cacheGet_cacheSet_other st 0 hno


theorem dictGet_mem {mods : List Module} {n : String} {M : Module}
    (h : dictGet mods n = some M) : M ∈ mods := by
  induction mods with
  | nil => cases h
  | cons M0 rest ih =>
    simp only [dictGet] at h
    cases hr : dictGet rest n with
    | some M' =>
      rw [hr] at h
      cases h
      exact List.mem_cons_of_mem M0 (ih hr)
    | none =>
      simp only [hr] at h
      by_cases he : M0.name = n
      · simp only [he, if_pos rfl] at h
        cases h
        exact List.mem_cons_self _ rest
      · simp [he] at h

theorem Ucard_nil_le (mods : List Module) : Ucard mods [] ≤ mods.length := by
  unfold Ucard
  calc ((keysF mods).filter fun n => cacheGet [] n = none).card
      ≤ (keysF mods).card := Finset.card_filter_le _ _
    _ ≤ (mods.map Module.name).length := List.toFinset_card_le _
    _ = mods.length := List.length_map _ _

theorem countResult_run {mods : List Module} {name : String} {M : Module}
    (hM : dictGet mods name = some M) :
    ∃ st' c, countFuel (mods.length + 1) mods [] M = some (st', c) ∧
      countResult mods M = some c := by
  have hMM := dictGet_self hM
  have htot := countFuel_total (mods.length + 1) mods [] M hMM
    (by have := Ucard_nil_le mods; omega)
  obtain ⟨p, hp⟩ := Option.isSome_iff_exists.mp htot
  obtain ⟨st', c⟩ := p
  exact ⟨st', c, hp, by unfold countResult; rw [hp]; rfl⟩

/-- On an acyclic design, the value `count_instances` computes from a
fresh cache is the canonical recursive count. -/
theorem countResult_naive {mods : List Module} {name : String} {M : Module}
    (hacyc : Acyclic mods) (hM : dictGet mods name = some M) :
    ∃ c, countResult mods M = some c ∧ NaiveVal mods M c := by
  obtain ⟨st', c, hrun, hres⟩ := countResult_run hM
  have hc := countFuel_correct mods hacyc (mods.length + 1) [] M (fun _ => False) st' c
    (dictGet_self hM) (fun n hn => absurd hn (by simp))
    (fun n c' hc' => by simp [cacheGet] at hc') hrun
  exact ⟨c, hres, hc.1⟩

/-- The per-instance contribution of §4.4: one occurrence of the type
name plus, when the type resolves to a design module, that module's own
recursively computed multiset. -/
def childCount (mods : List Module) (i : Instance) : Multiset String :=
  match dictGet mods i.type with
  | some T => (countResult mods T).getD 0
  | none => 0

/-- The sum over a module's direct instances of the per-instance
contributions. -/
def specSum (mods : List Module) (l : List Instance) : Multiset String :=
  l.foldr (fun i acc => {i.type} + childCount mods i + acc) 0

theorem naiveStep_specSum {mods : List Module} (hacyc : Acyclic mods) :
    ∀ (l : List Instance) (g : Nat) (q : Multiset String),
      naiveStep (fun T => naiveFuel g mods T) mods l = some q → q = specSum mods l := by
  intro l
  induction l with
  | nil =>
    intro g q h
    cases h
    simp [specSum]
  | cons inst rest ih =>
    intro g q h
    simp only [naiveStep] at h
    cases h1 : naiveStep (fun T => naiveFuel g mods T) mods rest with
    | none => simp only [h1] at h; cases h
    | some q0 =>
      simp only [h1] at h
      have hq0 := ih g q0 h1
      cases hd : dictGet mods inst.type with
      | none =>
        simp only [hd] at h
        cases h
        simp [specSum, childCount, hd, hq0]
      | some T =>
        simp only [hd] at h
        cases hr : naiveFuel g mods T with
        | none => simp only [hr] at h; cases h
        | some ct =>
          simp only [hr] at h
          cases h
          obtain ⟨cT, hcT, hnvT⟩ := countResult_naive hacyc hd
          have hct : ct = cT := NaiveVal_unique ⟨g, hr⟩ hnvT
          simp [specSum, childCount, hd, hcT, hq0, hct]

/-! ## Concrete designs used as inputs -/

/-- The `cellB` module of the spec's concrete scenario. -/
def cellB : Module := ⟨"cellB", ["a"], [⟨"wire", "a", 0, 0⟩], []⟩

/-- The `TopCell` module of the spec's concrete scenario. -/
def topCell : Module := ⟨"TopCell", ["x"], [⟨"wire", "x", 0, 0⟩],
  [⟨"AND2", "u1", [⟨"A", "x", 0, 0⟩, ⟨"B", "x", 0, 0⟩]⟩,
   ⟨"cellB", "u2", [⟨"a", "x", 0, 0⟩]⟩]⟩

/-- The acyclic two-module design of the spec's concrete scenario. -/
def exMods : List Module := [cellB, topCell]

/-- A design whose single module instantiates itself (a cyclic
module-instantiation graph). -/
def selfMod : Module := ⟨"M", ["a"], [], [⟨"M", "u", []⟩]⟩

/-- The one-module cyclic design. -/
def selfMods : List Module := [selfMod]

/-- A strictly decreasing rank certifies acyclicity. -/
theorem acyclic_of_rank {mods : List Module} (rank : String → Nat)
    (h : ∀ a b, instStep mods a b → rank b < rank a) : Acyclic mods := by
  intro a hta
  have key : ∀ x y, Relation.TransGen (instStep mods) x y → rank y < rank x := by
    intro x y ht
    induction ht with
    | single hs => exact h _ _ hs
    | tail _ hs ih => exact lt_trans (h _ _ hs) ih
  exact absurd (key a a hta) (lt_irrefl _)

theorem exMods_acyclic : Acyclic exMods := by
  apply acyclic_of_rank (fun n => if n = "TopCell" then 1 else 0)
  intro a b hs
  obtain ⟨M, hM, hb⟩ := hs
  have hmem := dictGet_mem hM
  have hname := dictGet_name hM
  simp only [exMods, List.mem_cons, List.not_mem_nil, or_false] at hmem
  rcases hmem with rfl | rfl
  · simp [cellB] at hb
  · subst hname
    simp only [topCell, List.map_cons, List.map_nil, List.mem_cons,
      List.not_mem_nil, or_false] at hb
    rcases hb with rfl | rfl <;> decide

/-! ## Claim C1 -/

/-- C1, counterexample: on the cyclic one-module design the computed
multiset is {M, M}, while the claimed equation demands one occurrence of
`M` plus the module's own recursively computed multiset, i.e. {M, M, M};
so the claimed equality fails for a Design containing a cycle. -/
theorem c1_counterexample :
    dictGet selfMods "M" = some selfMod ∧
    countResult selfMods selfMod ≠ some (specSum selfMods selfMod.instances) := by
  constructor
  · decide
  · decide

/-- C1 (amended with acyclicity): for every acyclic Design and every
module `M` in it, `count_instances` for `M` returns exactly the sum over
`M`'s direct instances of one occurrence of the instance's type name
plus, for each instance whose type names a module of the Design, that
module's own recursively computed multiset; a module with zero instances
yields the empty multiset (`specSum` of `[]` is `0`). -/
theorem c1_count_eq_specSum (mods : List Module) (name : String) (M : Module)
    (hacyc : Acyclic mods) (hM : dictGet mods name = some M) :
    countResult mods M = some (specSum mods M.instances) := by
  obtain ⟨c, hc, hnv⟩ := countResult_naive hacyc hM
  obtain ⟨g, hg⟩ := hnv
  cases g with
  | zero => cases hg
  | succ g =>
    simp only [naiveFuel] at hg
    rw [hc, naiveStep_specSum hacyc M.instances g c hg]

/-- C1 witness: the amended equation holds on the spec's concrete
acyclic TopCell design. -/
theorem c1_witness :
    Acyclic exMods ∧ dictGet exMods "TopCell" = some topCell ∧
    countResult exMods topCell = some (specSum exMods topCell.instances) :=
  ⟨exMods_acyclic, by decide,
    c1_count_eq_specSum exMods "TopCell" topCell exMods_acyclic (by decide)⟩

/-! ## Claim C2 -/

/-- C2, counterexample: the one-module design `selfMods` is cyclic
(`M` instantiates itself), yet `count_instances` on `M` terminates —
the cache entry installed before the loop makes the re-entrant call
return immediately, so the recursion is bounded.  This refutes the claim
that a cyclic module-instantiation graph causes unbounded recursion. -/
theorem c2_counterexample :
    Relation.TransGen (instStep selfMods) "M" "M" ∧
    (countFuel 3 selfMods [] selfMod).isSome = true := by
  constructor
  · exact Relation.TransGen.single ⟨selfMod, by decide, by decide⟩
  · decide

/-- C2 (amended): calling `count_instances` terminates on every Design,
cyclic or acyclic: fuel exceeding the number of modules with unset cache
always suffices, because `self.cntr` is assigned before the loop and a
re-entrant call returns the cached partial Counter at once. -/
theorem c2_terminates (mods : List Module) (M : Module)
    (hM : dictGet mods M.name = some M) :
    (countFuel (Ucard mods [] + 1) mods [] M).isSome :=
  countFuel_total _ mods [] M hM (Nat.le_refl _)

/-- C2 witness: termination on the concrete cyclic design. -/
theorem c2_witness :
    dictGet selfMods selfMod.name = some selfMod ∧
    (countFuel (Ucard selfMods [] + 1) selfMods [] selfMod).isSome = true :=
  ⟨by decide, c2_terminates selfMods selfMod (by decide)⟩

/-! ## Claim C3 -/

theorem countFuel_cache_final {f : Nat} {mods : List Module} {st : Cache}
    {M : Module} {st' : Cache} {c : Multiset String}
    (h : countFuel f mods st M = some (st', c)) :
    cacheGet st' M.name = some c := by
  cases f with
  | zero => cases h
  | succ f =>
    simp only [countFuel] at h
    cases h1 : cacheGet st M.name with
    | some c0 => simp only [h1] at h; cases h; exact h1
    | none =>
      simp only [h1] at h
      cases h2 : countStep (fun st' T => countFuel f mods st' T) mods
          (cacheSet st M.name 0) M.name M.instances with
      | none => simp only [h2] at h; cases h
      | some st2 =>
        simp only [h2] at h
        cases h3 : cacheGet st2 M.name with
        | none => simp only [h3] at h; cases h
        | some c2 => simp only [h3] at h; cases h; exact h3

theorem countStep_preserveVal
    {recur : Cache → Module → Option (Cache × Multiset String)} {mods : List Module}
    (hrec : ∀ st T st' c, recur st T = some (st', c) →
      ∀ n v, cacheGet st n = some v → cacheGet st' n = some v) :
    ∀ (l : List Instance) (st : Cache) (o : String) (st' : Cache),
      countStep recur mods st o l = some st' →
      ∀ n v, n ≠ o → cacheGet st n = some v → cacheGet st' n = some v := by
  intro l
  induction l with
  | nil =>
    intro st o st' h n v hno hn
    simp only [countStep] at h
    cases h
    exact hn
  | cons inst rest ih =>
    intro st o st' h n v hno hn
    simp only [countStep] at h
    have hA : cacheGet (cacheSet st o ((cacheGet st o).getD 0 + {inst.type})) n
        = some v := by
      rw [cacheGet_cacheSet_other st _ hno]; exact hn
    cases hd : dictGet mods inst.type with
    | none =>
      simp only [hd] at h
      exact ih _ o st' h n v hno hA
    | some T =>
      simp only [hd] at h
      cases hr : recur (cacheSet st o ((cacheGet st o).getD 0 + {inst.type})) T with
      | none => simp only [hr] at h; cases h
      | some p =>
        obtain ⟨st2, ct⟩ := p
        simp only [hr] at h
        have hB := hrec _ _ _ _ hr n v hA
        have hC : cacheGet (cacheSet st2 o ((cacheGet st2 o).getD 0 + ct)) n
            = some v := by
          rw [cacheGet_cacheSet_other st2 _ hno]; exact hB
        exact ih _ o st' h n v hno hC

/-- A counting run never overwrites a cache entry that was already set
when the run began: `self.cntr` is written only by the frame that found
it `None`. -/
theorem countFuel_preserveVal :
    ∀ (f : Nat) (mods : List Module) (st : Cache) (M : Module) (st' : Cache)
      (c : Multiset String), countFuel f mods st M = some (st', c) →
      ∀ n v, cacheGet st n = some v → cacheGet st' n = some v := by
  intro f
  induction f with
  | zero => intro mods st M st' c h; cases h
  | succ f ih =>
    intro mods st M st' c h n v hn
    simp only [countFuel] at h
    cases h1 : cacheGet st M.name with
    | some c0 => simp only [h1] at h; cases h; exact hn
    | none =>
      have hno : n ≠ M.name := by
        intro e
        rw [e, h1] at hn
        cases hn
      simp only [h1] at h
      cases h2 : countStep (fun st' T => countFuel f mods st' T) mods
          (cacheSet st M.name 0) M.name M.instances with
      | none => simp only [h2] at h; cases h
      | some st2 =>
        simp only [h2] at h
        have hA : cacheGet (cacheSet st M.name 0) n = some v := by
          rw [cacheGet_cacheSet_other st 0 hno]; exact hn
        have hpres := countStep_preserveVal (fun a b c' d e => ih mods a b c' d e)
          _ _ _ _ h2 n v hno hA
        cases h3 : cacheGet st2 M.name with
        | none => simp only [h3] at h; cases h
        | some c2 => simp only [h3] at h; cases h; exact hpres

/-- C3: the instance-count cache is computed at most once: whenever a
call to `count_instances` on module `M` finishes with value `c` and
cache state `st'`, any later call on the same module (any positive
fuel) immediately returns the identical multiset `c` with the cache
state unchanged; and no later counting run — on any module, however
many times it references `M` — ever changes `M`'s cached multiset,
so the cache is stable for the lifetime of the Design. -/
theorem c3_memoized (f f' : Nat) (mods : List Module) (st : Cache) (M : Module)
    (st' : Cache) (c : Multiset String)
    (h : countFuel f mods st M = some (st', c)) :
    countFuel (f' + 1) mods st' M = some (st', c) ∧
    ∀ (g : Nat) (N : Module) (st2 : Cache) (c2 : Multiset String),
      countFuel g mods st' N = some (st2, c2) → cacheGet st2 M.name = some c := by
  constructor
  · simp only [countFuel, countFuel_cache_final h]
  · intro g N st2 c2 h2
    exact countFuel_preserveVal g mods st' N st2 c2 h2 M.name c
      (countFuel_cache_final h)

/-- C3 witness: the concrete second call returns the identical multiset
and cache, and a later call on `cellB` leaves `TopCell`'s cached count
untouched. -/
theorem c3_witness :
    countFuel 3 exMods [] topCell
      = some ([("TopCell", {"AND2", "cellB"}), ("cellB", 0)], {"AND2", "cellB"}) ∧
    countFuel 6 exMods [("TopCell", {"AND2", "cellB"}), ("cellB", 0)] topCell
      = some ([("TopCell", {"AND2", "cellB"}), ("cellB", 0)], {"AND2", "cellB"}) ∧
    countFuel 2 exMods [("TopCell", {"AND2", "cellB"}), ("cellB", 0)] cellB
      = some ([("TopCell", {"AND2", "cellB"}), ("cellB", 0)], 0) ∧
    cacheGet [("TopCell", {"AND2", "cellB"}), ("cellB", 0)] "TopCell"
      = some {"AND2", "cellB"} :=
  ⟨by decide,
    (c3_memoized 3 5 exMods [] topCell
      [("TopCell", {"AND2", "cellB"}), ("cellB", 0)] {"AND2", "cellB"}
      (by decide)).1,
    by decide,
    (c3_memoized 3 5 exMods [] topCell
      [("TopCell", {"AND2", "cellB"}), ("cellB", 0)] {"AND2", "cellB"}
      (by decide)).2 2 cellB
      [("TopCell", {"AND2", "cellB"}), ("cellB", 0)] 0 (by decide)⟩

/-! ## Claim C8 -/

theorem dictGet_eq_none {mods : List Module} {n : String}
    (h : ∀ M ∈ mods, M.name ≠ n) : dictGet mods n = none := by
  induction mods with
  | nil => rfl
  | cons M0 rest ih =>
    simp only [dictGet]
    rw [ih (fun M hM => h M (List.mem_cons_of_mem M0 hM))]
    simp [h M0 (List.mem_cons_self M0 rest)]

/-- C8: asking `Design.count_instances` for a module name that no module
of the Design bears fails with the UnknownModule error (`self.modules[module]`
raises `KeyError`), producing no result at all. -/
theorem c8_unknown_module (mods : List Module) (name : String)
    (h : ∀ M ∈ mods, M.name ≠ name) :
    (Design.mk mods).count_instances name = none := by
  simp only [Design.count_instances, dictGet_eq_none h]

/-- C8 witness: a concrete absent name. -/
theorem c8_witness :
    (∀ M ∈ exMods, M.name ≠ "missing") ∧
    (Design.mk exMods).count_instances "missing" = none :=
  ⟨by decide, c8_unknown_module exMods "missing" (by decide)⟩

/-! ## The scanner

`Scanner.scan` drives `re.finditer` over an ordered alternation of
named groups (COMMENT `//.*\n`, NEWLINE `\n`, NUMBER `\d+`, IDENTIFIER
`\w+`, PUNCTUATOR `[\(\)\[\]:\.,;]`, WHITESPACE `[ \t]+`, MISMATCH `.`).
At each position the first group that matches wins and each repetition
is greedy, so matching is embedded as an ordered classifier over the
remaining characters.

Python's `\d` and `\w` on a `str` pattern are Unicode classes.  On the
ASCII plane they coincide exactly with `[0-9]` and `[a-zA-Z0-9_]`,
which is what the executable classes below compute; beyond ASCII the
model's classes are narrower than Python's (a non-ASCII letter such as
`é` is a `\w` character for the program but not for `isWordChar`).
Every statement proved below about the NUMBER/IDENTIFIER/MISMATCH
boundary therefore restricts the character it classifies to the ASCII
plane, where model and program agree; statements that never consult
`\d`/`\w` membership of a non-ASCII character (the comment matcher, the
slash, the punctuators, newline, blank, tab are all ASCII) need no such
restriction. -/

/-- Python `\w`, on the ASCII plane (`[a-zA-Z0-9_]`); an
under-approximation of the Unicode class beyond it. -/
def isWordChar (c : Char) : Bool := c.isAlphanum || c = '_'

/-- The PUNCTUATOR class `[\(\)\[\]:\.,;]` (note: no slash). -/
def isPunct (c : Char) : Bool :=
  c = '(' || c = ')' || c = '[' || c = ']' || c = ':' || c = '.' || c = ',' || c = ';'

/-- The WHITESPACE class `[ \t]`. -/
def isHorizWS (c : Char) : Bool := c = ' ' || c = '\t'

/-- Match of `//.*\n` at the head of the input: `.` does not match a
newline, so the group matches two slashes, the rest of the line, and
the terminating newline — which must be present.  Returns the matched
text and the remainder. -/
def commentMatch : List Char → Option (List Char × List Char)
  | '/' :: '/' :: rest =>
    match rest.dropWhile (fun c => c != '\n') with
    | '\n' :: rem =>
      some ('/' :: '/' :: (rest.takeWhile (fun c => c != '\n') ++ ['\n']), rem)
    | _ => none
  | _ => none

/-- One lexeme, classified by the first regex group that matches. -/
inductive Lexeme where
  | comment (txt rem : List Char)
  | newline (rem : List Char)
  | number (ds rem : List Char)
  | word (w rem : List Char)
  | punct (c : Char) (rem : List Char)
  | ws (run rem : List Char)
  | mismatch (c : Char) (rem : List Char)
deriving DecidableEq, Repr

/-- The ordered alternation at one position.  `Char.isDigit` is Python's
`\d` and `isWordChar` is Python's `\w` for ASCII characters; for a
non-ASCII character the program may classify as NUMBER/IDENTIFIER where
this classifier reaches `.mismatch`, so mismatch results are only
asserted for ASCII characters. -/
def classify : List Char → Option Lexeme
  | [] => none
  | c :: cs =>
    match commentMatch (c :: cs) with
    | some (txt, rem) => some (.comment txt rem)
    | none =>
      if c = '\n' then some (.newline cs)
      else if c.isDigit then
        some (.number ((c :: cs).takeWhile Char.isDigit) ((c :: cs).dropWhile Char.isDigit))
      else if isWordChar c then
        some (.word ((c :: cs).takeWhile isWordChar) ((c :: cs).dropWhile isWordChar))
      else if isPunct c then some (.punct c cs)
      else if isHorizWS c then
        some (.ws ((c :: cs).takeWhile isHorizWS) ((c :: cs).dropWhile isHorizWS))
      else some (.mismatch c cs)

/-- `int(value)` on a digit run. -/
def natOfDigits (ds : List Char) : Nat :=
  ds.foldl (fun a c => 10 * a + (c.toNat - 48)) 0

/-- The keyword list of `Scanner`. -/
def keywords : List String := ["module", "endmodule", "input", "output", "wire"]

/-- The `RuntimeError` of `Scanner.scan`: offending text, line, column. -/
structure LexError where
  value : String
  line : Nat
  column : Nat
deriving DecidableEq, Repr

/-- The scan loop.  `pos` is the absolute offset, `line` the 1-based
line, `start` the offset of the current line's first character; the
column of a match is `pos - start + 1`.  COMMENT and NEWLINE advance
the line counter and reset `start`; WHITESPACE is skipped; MISMATCH
halts the scan with a `LexError` carrying the offending character and
its position; no token after it is produced. -/
def scanAux : Nat → List Char → Nat → Nat → Nat → Except LexError (List Token)
  | _, [], _, _, _ => .ok []
  | 0, _ :: _, _, _, _ => .ok []
  | fuel + 1, c :: cs, pos, line, start =>
    match classify (c :: cs) with
    | none => .ok []
    | some (.comment txt rem) =>
      scanAux fuel rem (pos + txt.length) (line + 1) (pos + txt.length)
    | some (.newline rem) => scanAux fuel rem (pos + 1) (line + 1) (pos + 1)
    | some (.number ds rem) =>
      match scanAux fuel rem (pos + ds.length) line start with
      | .error e => .error e
      | .ok ts => .ok (⟨"NUMBER", .num (natOfDigits ds), line, pos - start + 1⟩ :: ts)
    | some (.word w rem) =>
      match scanAux fuel rem (pos + w.length) line start with
      | .error e => .error e
      | .ok ts =>
        .ok (⟨if String.mk w ∈ keywords then String.mk w else "IDENTIFIER",
              .str (String.mk w), line, pos - start + 1⟩ :: ts)
    | some (.punct ch rem) =>
      match scanAux fuel rem (pos + 1) line start with
      | .error e => .error e
      | .ok ts =>
        .ok (⟨String.mk [ch], .str (String.mk [ch]), line, pos - start + 1⟩ :: ts)
    | some (.ws run rem) => scanAux fuel rem (pos + run.length) line start
    | some (.mismatch ch _) => .error ⟨String.mk [ch], line, pos - start + 1⟩

/-- `Scanner().scan(inp)`, fully materialized. -/
def scan (s : String) : Except LexError (List Token) :=
  scanAux (s.length + 1) s.data 0 1 0

/-- When every regex group fails at the current position, the scan stops
with a `LexError` naming the character and its position. -/
theorem scanAux_mismatch_eq (f : Nat) (c : Char) (cs : List Char)
    (pos line start : Nat)
    (hcm : commentMatch (c :: cs) = none) (hnl : c ≠ '\n')
    (hdig : c.isDigit = false) (hw : isWordChar c = false)
    (hp : isPunct c = false) (hws : isHorizWS c = false) :
    scanAux (f + 1) (c :: cs) pos line start
      = .error ⟨String.mk [c], line, pos - start + 1⟩ := by
  simp [scanAux, classify, hcm, hnl, hdig, hw, hp, hws]

/-! ## Claim C6 -/

/-- C6: scanning an ASCII character that matches none of the recognized
lexeme classes — not the start of a terminated line comment, not a
newline, digit, word character, punctuator, or horizontal whitespace —
raises a fatal lexical error reporting that character together with the
current 1-based line and the 1-based column `pos - start + 1`, and the
scan halts at once: the result is the bare error, with no further
tokens.  The ASCII bound is where the executable `\d`/`\w` classes
coincide with the source's Unicode ones, so the six hypotheses say
exactly that no group of `Scanner.regexes` matches the character. -/
theorem c6_lexical_error (f : Nat) (c : Char) (cs : List Char)
    (pos line start : Nat) (hascii : c.toNat ≤ 127)
    (hcm : commentMatch (c :: cs) = none) (hnl : c ≠ '\n')
    (hdig : c.isDigit = false) (hw : isWordChar c = false)
    (hp : isPunct c = false) (hws : isHorizWS c = false) :
    scanAux (f + 1) (c :: cs) pos line start
      = .error ⟨String.mk [c], line, pos - start + 1⟩ :=
  scanAux_mismatch_eq f c cs pos line start hcm hnl hdig hw hp hws

/-- C6 witness: `@` at offset 2 of line 1. -/
theorem c6_witness :
    ('@').toNat ≤ 127 ∧ commentMatch ['@', 'b'] = none ∧ isPunct '@' = false ∧
    scanAux 9 ['@', 'b'] 2 1 0 = .error ⟨String.mk ['@'], 1, 3⟩ :=
  ⟨by decide, by decide, by decide,
    c6_lexical_error 8 '@' ['b'] 2 1 0 (by decide) (by decide) (by decide)
      (by decide) (by decide) (by decide) (by decide)⟩

/-! ## Claim C10 -/

theorem dropWhile_append_newline :
    ∀ (t : List Char), (∀ x ∈ t, (x != '\n') = true) →
      (t ++ ['\n']).dropWhile (fun c => c != '\n') = ['\n'] := by
  intro t
  induction t with
  | nil => intro _; simp [List.dropWhile]
  | cons a t ih =>
    intro ha
    simp only [List.cons_append, List.dropWhile_cons]
    rw [if_pos (ha a (List.mem_cons_self a t))]
    exact ih (fun x hx => ha x (List.mem_cons_of_mem a hx))

/-- C10: a line comment not terminated by a newline is not recognized:
with no newline after `//`, the COMMENT group fails and the first slash
falls through every other group (a slash is not a punctuator), so the
scan raises a lexical error at the slash's position — while the same
input with a terminating newline scans cleanly as a comment. -/
theorem c10_unterminated_comment (f : Nat) (tail : List Char)
    (pos line start : Nat) (h : '\n' ∉ tail) :
    scanAux (f + 1) ('/' :: '/' :: tail) pos line start
      = .error ⟨String.mk ['/'], line, pos - start + 1⟩ ∧
    scanAux (f + 1) ('/' :: '/' :: (tail ++ ['\n'])) pos line start = .ok [] := by
  have htail : ∀ x ∈ tail, (x != '\n') = true := by
    intro x hx
    simp only [bne_iff_ne, ne_eq]
    exact fun e => h (e ▸ hx)
  constructor
  · have hdw : tail.dropWhile (fun c => c != '\n') = [] :=
      List.dropWhile_eq_nil_iff.mpr htail
    have hcm : commentMatch ('/' :: '/' :: tail) = none := by
      simp only [commentMatch, hdw]
    exact scanAux_mismatch_eq f '/' ('/' :: tail) pos line start hcm
      (by decide) (by decide) (by decide) (by decide) (by decide)
  · have hcm2 : commentMatch ('/' :: '/' :: (tail ++ ['\n']))
        = some ('/' :: '/' :: ((tail ++ ['\n']).takeWhile (fun c => c != '\n') ++ ['\n']),
            []) := by
      simp only [commentMatch, dropWhile_append_newline tail htail]
    simp only [scanAux, classify, hcm2]

/-- C10 witness: `//ab` at the end of input. -/
theorem c10_witness :
    ('\n' ∉ ['a', 'b']) ∧
    scanAux 9 ['/', '/', 'a', 'b'] 0 1 0 = .error ⟨String.mk ['/'], 1, 1⟩ ∧
    scanAux 9 ['/', '/', 'a', 'b', '\n'] 0 1 0 = .ok [] := by
  refine ⟨by decide, ?_, ?_⟩
  · exact (c10_unterminated_comment 8 ['a', 'b'] 0 1 0 (by decide)).1
  · exact (c10_unterminated_comment 8 ['a', 'b'] 0 1 0 (by decide)).2

/-! ## The parser

`Parser` holds the cursor: `self.token` (last consumed), `self.next_token`
(lookahead), and the token generator, modelled by the not-yet-pulled
token list.  Each `_parse_*` method becomes a function from cursor state
to `Except`; the `while` loops carry fuel (the `.fuel` error is the
fuel-exhaustion artifact of the embedding, unreachable for the fuel
`parseTokens` supplies on the inputs of the theorems below). -/

/-- The cursor: `self.token`, `self.next_token`, unread tokens. -/
structure PState where
  tok : Option Token
  la : Option Token
  rest : List Token
deriving DecidableEq, Repr

/-- Errors raised while parsing: `.syn` is the `SyntaxError` of
`_expect` (expected kind, current token's line and column); `.noCurrent`
models the `AttributeError` Python would raise if `_expect` failed
before any token was consumed; `.trailing` is the
`SyntaxError('Unexpected end of file')` of `parse`; `.fuel` is the
embedding's fuel-exhaustion marker. -/
inductive PErr where
  | syn (expected : String) (line column : Nat)
  | noCurrent (expected : String)
  | trailing
  | fuel
deriving DecidableEq, Repr

/-- `_advance`. -/
def advance (st : PState) : PState := ⟨st.la, st.rest.head?, st.rest.tail⟩

/-- `getattr(self.next_token, 'type', None)`. -/
def laKind (st : PState) : Option String := st.la.map Token.kind

/-- `_accept`: consume the lookahead iff it has the wanted kind. -/
def accept (k : String) (st : PState) : Bool × PState :=
  if laKind st = some k then (true, advance st) else (false, st)

/-- `_expect`: accept or raise a `SyntaxError` carrying the expected
kind and the position of the current token (the last consumed one). -/
def expect (k : String) (st : PState) : Except PErr PState :=
  match accept k st with
  | (true, st') => .ok st'
  | (false, _) =>
    match st.tok with
    | some t => .error (.syn k t.line t.column)
    | none => .error (.noCurrent k)

/-- `self.token.value` read as a string. -/
def tokStr (st : PState) : String :=
  match st.tok with
  | some ⟨_, .str s, _, _⟩ => s
  | some ⟨_, .num n, _, _⟩ => toString n
  | none => ""

/-- `self.token.value` read as the scanned integer. -/
def tokNum (st : PState) : Nat :=
  match st.tok with
  | some ⟨_, .num n, _, _⟩ => n
  | _ => 0

/-- `self.token.type`. -/
def tokKind (st : PState) : String :=
  match st.tok with
  | some t => t.kind
  | none => ""

/-- `_parse_dimensions`. -/
def parseDims (st : PState) : Except PErr ((Nat × Nat) × PState) :=
  match accept "[" st with
  | (true, st1) => do
    let st2 ← expect "NUMBER" st1
    let msb := tokNum st2
    let st3 ← expect ":" st2
    let st4 ← expect "NUMBER" st3
    let lsb := tokNum st4
    let st5 ← expect "]" st4
    pure ((msb, lsb), st5)
  | (false, st1) => pure ((0, 0), st1)

/-- `_parse_arg`. -/
def parseArg (st : PState) : Except PErr (Argument × PState) := do
  let st1 ← expect "." st
  let st2 ← expect "IDENTIFIER" st1
  let param := tokStr st2
  let st3 ← expect "(" st2
  let st4 ← expect "IDENTIFIER" st3
  let arg := tokStr st4
  match accept "[" st4 with
  | (false, st5) => do
    let st6 ← expect ")" st5
    pure (⟨param, arg, 0, 0⟩, st6)
  | (true, st5) => do
    let st6 ← expect "NUMBER" st5
    let msb := tokNum st6
    match accept ":" st6 with
    | (false, st7) => do
      let st8 ← expect "]" st7
      let st9 ← expect ")" st8
      pure (⟨param, arg, msb, msb⟩, st9)
    | (true, st7) => do
      let st8 ← expect "NUMBER" st7
      let lsb := tokNum st8
      let st9 ← expect "]" st8
      let st10 ← expect ")" st9
      pure (⟨param, arg, msb, lsb⟩, st10)

/-- The `while self._accept(',')` tail of `_parse_args`. -/
def argsLoop : Nat → PState → List Argument → Except PErr (List Argument × PState)
  | 0, _, _ => .error .fuel
  | f + 1, st, acc =>
    match accept "," st with
    | (false, st1) => pure (acc, st1)
    | (true, st1) => do
      let (a, st2) ← parseArg st1
      argsLoop f st2 (acc ++ [a])

/-- `_parse_args`. -/
def parseArgs (f : Nat) (st : PState) : Except PErr (List Argument × PState) := do
  let (a, st1) ← parseArg st
  argsLoop f st1 [a]

/-- `_parse_instances`. -/
def instLoop : Nat → PState → List Instance → Except PErr (List Instance × PState)
  | 0, _, _ => .error .fuel
  | f + 1, st, acc =>
    match accept "IDENTIFIER" st with
    | (false, st1) => pure (acc, st1)
    | (true, st1) => do
      let kind := tokStr st1
      let st2 ← expect "IDENTIFIER" st1
      let iname := tokStr st2
      let st3 ← expect "(" st2
      let (args, st4) ← parseArgs f st3
      let st5 ← expect ")" st4
      let st6 ← expect ";" st5
      instLoop f st6 (acc ++ [⟨kind, iname, args⟩])

/-- `_parse_nets`: `while accept('output') or accept('input') or
accept('wire')`, with Python's short-circuit evaluation. -/
def netsLoop : Nat → PState → List Net → Except PErr (List Net × PState)
  | 0, _, _ => .error .fuel
  | f + 1, st, acc =>
    let r1 := accept "output" st
    let r2 := if r1.1 then r1 else accept "input" r1.2
    let r3 := if r2.1 then r2 else accept "wire" r2.2
    if r3.1 then do
      let kind := tokKind r3.2
      let ((msb, lsb), st4) ← parseDims r3.2
      let st5 ← expect "IDENTIFIER" st4
      let nname := tokStr st5
      let st6 ← expect ";" st5
      netsLoop f st6 (acc ++ [⟨kind, nname, msb, lsb⟩])
    else pure (acc, r3.2)

/-- The `while self._accept(',')` tail of `_parse_params`. -/
def paramsLoop : Nat → PState → List String → Except PErr (List String × PState)
  | 0, _, _ => .error .fuel
  | f + 1, st, acc =>
    match accept "," st with
    | (false, st1) => pure (acc, st1)
    | (true, st1) => do
      let st2 ← expect "IDENTIFIER" st1
      paramsLoop f st2 (acc ++ [tokStr st2])

/-- `_parse_params`. -/
def parseParams (f : Nat) (st : PState) : Except PErr (List String × PState) := do
  let st1 ← expect "IDENTIFIER" st
  paramsLoop f st1 [tokStr st1]

/-- `_parse_file`: `while self._accept('module')`. -/
def fileLoop : Nat → PState → List Module → Except PErr (List Module × PState)
  | 0, _, _ => .error .fuel
  | f + 1, st, acc =>
    match accept "module" st with
    | (false, st1) => pure (acc, st1)
    | (true, st1) => do
      let st2 ← expect "IDENTIFIER" st1
      let mname := tokStr st2
      let st3 ← expect "(" st2
      let (ps, st4) ← parseParams f st3
      let st5 ← expect ")" st4
      let st6 ← expect ";" st5
      let (ns, st7) ← netsLoop f st6 []
      let (is, st8) ← instLoop f st7 []
      let st9 ← expect "endmodule" st8
      fileLoop f st9 (acc ++ [⟨mname, ps, ns, is⟩])

/-- `Parser.parse` from a pre-scanned token list: one initial `_advance`
from the fresh cursor, the module loop, then the trailing-input check
`if self.next_token is not None: raise SyntaxError(...)`. -/
def parseTokens (toks : List Token) : Except PErr Design := do
  let (mods, st1) ← fileLoop (toks.length + 1) ⟨none, toks.head?, toks.tail⟩ []
  if st1.la = none then pure ⟨mods⟩ else .error .trailing

/-- An error from either phase. -/
inductive VErr where
  | lex (e : LexError)
  | par (e : PErr)
deriving DecidableEq, Repr

/-- `Parser().parse(inp)` on raw text (the Python token generator is
consumed lazily; the model scans eagerly, which agrees on every input
whose scan succeeds). -/
def parse (s : String) : Except VErr Design :=
  match scan s with
  | .error e => .error (.lex e)
  | .ok toks =>
    match parseTokens toks with
    | .error e => .error (.par e)
    | .ok d => .ok d

/-! ## Token-stream builders -/

/-- An IDENTIFIER token (positions are irrelevant to acceptance). -/
def idTok (s : String) : Token := ⟨"IDENTIFIER", .str s, 0, 0⟩

/-- A NUMBER token. -/
def numTok (n : Nat) : Token := ⟨"NUMBER", .num n, 0, 0⟩

/-- A keyword or punctuator token: the scanner reclassifies these so
that the kind is the matched text itself. -/
def symTok (s : String) : Token := ⟨s, .str s, 0, 0⟩

/-- Cursor with current token `prev` and the tokens `ts` still ahead
(the lookahead is the head of `ts`). -/
def stOf (prev : Option Token) (ts : List Token) : PState := ⟨prev, ts.head?, ts.tail⟩

theorem accept_cons_pos {k : String} {t : Token} (prev : Option Token) (ts : List Token)
    (h : t.kind = k) : accept k (stOf prev (t :: ts)) = (true, stOf (some t) ts) := by
  simp [accept, laKind, stOf, advance, h]

theorem accept_cons_neg {k : String} {t : Token} (prev : Option Token) (ts : List Token)
    (h : t.kind ≠ k) : accept k (stOf prev (t :: ts)) = (false, stOf prev (t :: ts)) := by
  simp [accept, laKind, stOf, h]

theorem accept_nil (k : String) (prev : Option Token) :
    accept k (stOf prev []) = (false, stOf prev []) := by
  simp [accept, laKind, stOf]

theorem expect_cons_pos {k : String} {t : Token} (prev : Option Token) (ts : List Token)
    (h : t.kind = k) : expect k (stOf prev (t :: ts)) = .ok (stOf (some t) ts) := by
  simp only [expect, accept_cons_pos prev ts h]

/-! ## Claim C4 -/

/-- C4: in a port-connection argument, a bracketed single number sets
both `msb` and `lsb` of the built Argument to that number; a number,
colon, and second number set `msb` to the first and `lsb` to the
second; no bracketed select yields `msb = 0` and `lsb = 0`. -/
theorem c4_bit_select (p a : String) (m l : Nat) (rest : List Token)
    (prev : Option Token) :
    parseArg (stOf prev (symTok "." :: idTok p :: symTok "(" :: idTok a ::
        symTok "[" :: numTok m :: symTok "]" :: symTok ")" :: rest))
      = .ok (⟨p, a, m, m⟩, stOf (some (symTok ")")) rest) ∧
    parseArg (stOf prev (symTok "." :: idTok p :: symTok "(" :: idTok a ::
        symTok "[" :: numTok m :: symTok ":" :: numTok l :: symTok "]" ::
        symTok ")" :: rest))
      = .ok (⟨p, a, m, l⟩, stOf (some (symTok ")")) rest) ∧
    parseArg (stOf prev (symTok "." :: idTok p :: symTok "(" :: idTok a ::
        symTok ")" :: rest))
      = .ok (⟨p, a, 0, 0⟩, stOf (some (symTok ")")) rest) := by
  refine ⟨?_, ?_, ?_⟩ <;> rfl

/-! ## Claim C5 -/

/-- C5: whenever `_expect(kind)` fails while a token has been consumed
(the lookahead's kind is not the expected one), the parse stops with a
`SyntaxError` naming the expected kind and carrying the line and column
of the current token — the last successfully consumed one; no partial
result is produced. -/
theorem c5_expect_syntax_error (k : String) (st : PState) (t : Token)
    (htok : st.tok = some t) (hla : laKind st ≠ some k) :
    expect k st = .error (.syn k t.line t.column) := by
  simp [expect, accept, hla, htok]

/-- C5 witness: `module ;` — `_expect('IDENTIFIER')` fails with the
lookahead `;` and reports the position of the consumed `module` token;
the whole parse of that token stream yields exactly this error. -/
theorem c5_witness :
    expect "IDENTIFIER"
        (stOf (some ⟨"module", .str "module", 1, 1⟩) [⟨";", .str ";", 1, 8⟩])
      = .error (.syn "IDENTIFIER" 1 1) ∧
    parseTokens [⟨"module", .str "module", 1, 1⟩, ⟨";", .str ";", 1, 8⟩]
      = .error (.syn "IDENTIFIER" 1 1) :=
  ⟨c5_expect_syntax_error "IDENTIFIER" _ _ rfl (by decide), by rfl⟩

/-! ## Well-formed inputs

A derivation of the grammar of `_parse_file` at the token level: the
`Syn*` structures are exactly the shapes the EBNF admits (`params` and
`args` are nonempty; `dims` and the bit-select are optional), and the
`*Tokens` functions emit the corresponding token streams. -/

/-- `arg = "." IDENTIFIER "(" IDENTIFIER ["[" NUMBER [":" NUMBER] "]"] ")"`. -/
structure SynArg where
  param : String
  arg : String
  sel : Option (Nat × Option Nat)
deriving DecidableEq, Repr

/-- `instance = IDENTIFIER IDENTIFIER "(" args ")" ";"` with
`args = arg {"," arg}`. -/
structure SynInst where
  type : String
  iname : String
  arg1 : SynArg
  args : List SynArg
deriving DecidableEq, Repr

/-- The net keywords. -/
inductive NetKw where
  | input
  | output
  | wire
deriving DecidableEq, Repr

/-- The keyword's text (and token kind). -/
def NetKw.str : NetKw → String
  | .input => "input"
  | .output => "output"
  | .wire => "wire"

/-- `net = ("output"|"input"|"wire") dims IDENTIFIER ";"`. -/
structure SynNet where
  kw : NetKw
  dims : Option (Nat × Nat)
  nname : String
deriving DecidableEq, Repr

/-- `module = "module" IDENTIFIER "(" params ")" ";" nets instances
"endmodule"` with `params = IDENTIFIER {"," IDENTIFIER}`. -/
structure SynModule where
  mname : String
  param1 : String
  params : List String
  nets : List SynNet
  insts : List SynInst
deriving DecidableEq, Repr

def selTokens : Option (Nat × Option Nat) → List Token
  | none => []
  | some (m, none) => [symTok "[", numTok m, symTok "]"]
  | some (m, some l) => [symTok "[", numTok m, symTok ":", numTok l, symTok "]"]

def argTokens (a : SynArg) : List Token :=
  symTok "." :: idTok a.param :: symTok "(" :: idTok a.arg ::
    (selTokens a.sel ++ [symTok ")"])

/-- The Argument `_parse_arg` builds from `argTokens`. -/
def argVal (a : SynArg) : Argument :=
  match a.sel with
  | none => ⟨a.param, a.arg, 0, 0⟩
  | some (m, none) => ⟨a.param, a.arg, m, m⟩
  | some (m, some l) => ⟨a.param, a.arg, m, l⟩

def argsTailTokens (l : List SynArg) : List Token :=
  l.foldr (fun a acc => symTok "," :: (argTokens a ++ acc)) []

def instTokens (i : SynInst) : List Token :=
  idTok i.type :: idTok i.iname :: symTok "(" ::
    (argTokens i.arg1 ++ argsTailTokens i.args ++ [symTok ")", symTok ";"])

def instVal (i : SynInst) : Instance :=
  ⟨i.type, i.iname, argVal i.arg1 :: i.args.map argVal⟩

def instsTokens (l : List SynInst) : List Token :=
  l.foldr (fun i acc => instTokens i ++ acc) []

def dimsTokens : Option (Nat × Nat) → List Token
  | none => []
  | some (m, l) => [symTok "[", numTok m, symTok ":", numTok l, symTok "]"]

def netTokens (n : SynNet) : List Token :=
  symTok n.kw.str :: (dimsTokens n.dims ++ [idTok n.nname, symTok ";"])

def netVal (n : SynNet) : Net :=
  match n.dims with
  | none => ⟨n.kw.str, n.nname, 0, 0⟩
  | some (m, l) => ⟨n.kw.str, n.nname, m, l⟩

def netsTokens (l : List SynNet) : List Token :=
  l.foldr (fun n acc => netTokens n ++ acc) []

def paramsTailTokens (l : List String) : List Token :=
  l.foldr (fun s acc => symTok "," :: idTok s :: acc) []

def moduleTokens (m : SynModule) : List Token :=
  symTok "module" :: idTok m.mname :: symTok "(" :: idTok m.param1 ::
    (paramsTailTokens m.params ++ [symTok ")", symTok ";"] ++ netsTokens m.nets ++
      instsTokens m.insts ++ [symTok "endmodule"])

def moduleVal (m : SynModule) : Module :=
  ⟨m.mname, m.param1 :: m.params, m.nets.map netVal, m.insts.map instVal⟩

def fileTokens (F : List SynModule) : List Token :=
  F.foldr (fun m acc => moduleTokens m ++ acc) []

def fileVal (F : List SynModule) : List Module := F.map moduleVal

/-! Fuel lower bounds for the loops. -/

def argsSize (l : List SynArg) : Nat := l.length + 1

def instsSize (l : List SynInst) : Nat :=
  l.foldr (fun i a => argsSize i.args + 1 + a) 0

def paramsSize (l : List String) : Nat := l.length + 1

def moduleSize (m : SynModule) : Nat :=
  paramsSize m.params + m.nets.length + instsSize m.insts + 1

def fileSize (F : List SynModule) : Nat :=
  F.foldr (fun m a => moduleSize m + 1 + a) 0

theorem accept_stOf_notkind (k : String) (prev : Option Token) (ts : List Token)
    (h : ∀ t, ts.head? = some t → t.kind ≠ k) :
    accept k (stOf prev ts) = (false, stOf prev ts) := by
  cases ts with
  | nil => exact accept_nil k prev
  | cons t ts' => exact accept_cons_neg prev ts' (h t rfl)

/-! ## Completeness of the parser on well-formed inputs -/

theorem parseArg_complete (a : SynArg) (prev : Option Token) (rest : List Token) :
    parseArg (stOf prev (argTokens a ++ rest))
      = .ok (argVal a, stOf (some (symTok ")")) rest) := by
  obtain ⟨p, ar, sel⟩ := a
  rcases sel with _ | ⟨m, _ | l⟩ <;> rfl

@[simp] theorem except_bind_ok {α β ε : Type} (x : α) (g : α → Except ε β) :
    (Except.ok x : Except ε α) >>= g = g x := rfl

@[simp] theorem except_bind_error {α β ε : Type} (e : ε) (g : α → Except ε β) :
    (Except.error e : Except ε α) >>= g = .error e := rfl

@[simp] theorem except_pure {α ε : Type} (x : α) :
    (pure x : Except ε α) = Except.ok x := rfl

theorem argsLoop_complete :
    ∀ (l : List SynArg) (f : Nat) (acc : List Argument) (prev : Option Token)
      (suffix : List Token),
      argsSize l ≤ f →
      (∀ t, suffix.head? = some t → t.kind ≠ ",") →
      ∃ p', argsLoop f (stOf prev (argsTailTokens l ++ suffix)) acc
        = .ok (acc ++ l.map argVal, stOf p' suffix) := by
  intro l
  induction l with
  | nil =>
    intro f acc prev suffix hf hsuf
    cases f with
    | zero => simp [argsSize] at hf
    | succ f =>
      refine ⟨prev, ?_⟩
      simp only [argsTailTokens, List.foldr_nil, List.nil_append, argsLoop,
        accept_stOf_notkind "," prev suffix hsuf, List.map_nil, List.append_nil,
        except_pure]
  | cons a l' ih =>
    intro f acc prev suffix hf hsuf
    cases f with
    | zero => simp [argsSize] at hf
    | succ f =>
      obtain ⟨p', hp'⟩ := ih f (acc ++ [argVal a]) (some (symTok ")")) suffix
        (by simp only [argsSize, List.length_cons] at hf ⊢; omega) hsuf
      refine ⟨p', ?_⟩
      have hstream : argsTailTokens (a :: l') ++ suffix
          = symTok "," :: (argTokens a ++ (argsTailTokens l' ++ suffix)) := by
        simp [argsTailTokens, List.append_assoc]
      rw [hstream]
      simp only [argsLoop,
        accept_cons_pos prev _ (show (symTok ",").kind = "," from rfl),
        parseArg_complete a (some (symTok ",")) _, except_bind_ok]
      rw [hp']
      simp

theorem expect_id (s : String) (prev : Option Token) (ts : List Token) :
    expect "IDENTIFIER" (stOf prev (idTok s :: ts)) = .ok (stOf (some (idTok s)) ts) :=
  expect_cons_pos prev ts rfl

theorem expect_sym (k : String) (prev : Option Token) (ts : List Token) :
    expect k (stOf prev (symTok k :: ts)) = .ok (stOf (some (symTok k)) ts) :=
  expect_cons_pos prev ts rfl

theorem expect_num (n : Nat) (prev : Option Token) (ts : List Token) :
    expect "NUMBER" (stOf prev (numTok n :: ts)) = .ok (stOf (some (numTok n)) ts) :=
  expect_cons_pos prev ts rfl

theorem accept_sym (k : String) (prev : Option Token) (ts : List Token) :
    accept k (stOf prev (symTok k :: ts)) = (true, stOf (some (symTok k)) ts) :=
  accept_cons_pos prev ts rfl

theorem accept_id_pos (s : String) (prev : Option Token) (ts : List Token) :
    accept "IDENTIFIER" (stOf prev (idTok s :: ts)) = (true, stOf (some (idTok s)) ts) :=
  accept_cons_pos prev ts rfl

@[simp] theorem tokStr_id (s : String) (ts : List Token) :
    tokStr (stOf (some (idTok s)) ts) = s := rfl

@[simp] theorem tokNum_num (n : Nat) (ts : List Token) :
    tokNum (stOf (some (numTok n)) ts) = n := rfl

@[simp] theorem tokKind_sym (s : String) (ts : List Token) :
    tokKind (stOf (some (symTok s)) ts) = s := rfl

theorem parseArgs_complete (a1 : SynArg) (l : List SynArg) (f : Nat)
    (prev : Option Token) (suffix : List Token)
    (hf : argsSize l ≤ f)
    (hsuf : ∀ t, suffix.head? = some t → t.kind ≠ ",") :
    ∃ p', parseArgs f (stOf prev (argTokens a1 ++ (argsTailTokens l ++ suffix)))
      = .ok (argVal a1 :: l.map argVal, stOf p' suffix) := by
  obtain ⟨p', hp'⟩ := argsLoop_complete l f [argVal a1] (some (symTok ")")) suffix hf hsuf
  refine ⟨p', ?_⟩
  simp only [parseArgs, parseArg_complete a1 prev _, except_bind_ok]
  rw [hp']
  simp

theorem instLoop_complete :
    ∀ (l : List SynInst) (f : Nat) (acc : List Instance) (prev : Option Token)
      (suffix : List Token),
      instsSize l + 1 ≤ f →
      (∀ t, suffix.head? = some t → t.kind ≠ "IDENTIFIER") →
      ∃ p', instLoop f (stOf prev (instsTokens l ++ suffix)) acc
        = .ok (acc ++ l.map instVal, stOf p' suffix) := by
  intro l
  induction l with
  | nil =>
    intro f acc prev suffix hf hsuf
    cases f with
    | zero => omega
    | succ f =>
      refine ⟨prev, ?_⟩
      simp only [instsTokens, List.foldr_nil, List.nil_append, instLoop,
        accept_stOf_notkind "IDENTIFIER" prev suffix hsuf, List.map_nil,
        List.append_nil, except_pure]
  | cons i l' ih =>
    intro f acc prev suffix hf hsuf
    obtain ⟨ty, nm, a1, as⟩ := i
    cases f with
    | zero => omega
    | succ f =>
      have hargs : argsSize as ≤ f := by
        simp only [instsSize, List.foldr_cons] at hf; omega
      have hrest : instsSize l' + 1 ≤ f := by
        simp only [instsSize, List.foldr_cons, argsSize] at hf ⊢; omega
      obtain ⟨pA, hA⟩ := parseArgs_complete a1 as f (some (symTok "("))
        (symTok ")" :: symTok ";" :: (instsTokens l' ++ suffix)) hargs
        (by intro t ht; cases ht; decide)
      obtain ⟨p', hp'⟩ := ih f (acc ++ [instVal ⟨ty, nm, a1, as⟩])
        (some (symTok ";")) suffix hrest hsuf
      refine ⟨p', ?_⟩
      have hstream : instsTokens (⟨ty, nm, a1, as⟩ :: l') ++ suffix
          = idTok ty :: idTok nm :: symTok "(" ::
            (argTokens a1 ++ (argsTailTokens as ++
              (symTok ")" :: symTok ";" :: (instsTokens l' ++ suffix)))) := by
        simp [instsTokens, instTokens, List.append_assoc]
      rw [hstream]
      simp only [instLoop, accept_id_pos, expect_id, expect_sym, except_bind_ok,
        tokStr_id]
      rw [hA]
      simp only [except_bind_ok, expect_sym]
      simp only [instVal] at hp'
      rw [hp']
      simp [instVal]

/-- The `(msb, lsb)` pair `_parse_dimensions` returns. -/
def dimsVal : Option (Nat × Nat) → Nat × Nat
  | none => (0, 0)
  | some dd => dd

theorem parseDims_complete (d : Option (Nat × Nat)) (prev : Option Token)
    (suffix : List Token)
    (hsuf : ∀ t, suffix.head? = some t → t.kind ≠ "[") :
    ∃ p', parseDims (stOf prev (dimsTokens d ++ suffix))
      = .ok (dimsVal d, stOf p' suffix) := by
  cases d with
  | none =>
    refine ⟨prev, ?_⟩
    simp only [dimsTokens, List.nil_append, parseDims,
      accept_stOf_notkind "[" prev suffix hsuf, dimsVal, except_pure]
  | some dd =>
    obtain ⟨m, l⟩ := dd
    refine ⟨some (symTok "]"), ?_⟩
    simp only [dimsTokens, List.cons_append, List.nil_append, parseDims,
      accept_sym, expect_num, expect_sym, except_bind_ok, tokNum_num, dimsVal,
      except_pure]

theorem paramsLoop_complete :
    ∀ (l : List String) (f : Nat) (acc : List String) (prev : Option Token)
      (suffix : List Token),
      l.length + 1 ≤ f →
      (∀ t, suffix.head? = some t → t.kind ≠ ",") →
      ∃ p', paramsLoop f (stOf prev (paramsTailTokens l ++ suffix)) acc
        = .ok (acc ++ l, stOf p' suffix) := by
  intro l
  induction l with
  | nil =>
    intro f acc prev suffix hf hsuf
    cases f with
    | zero => omega
    | succ f =>
      refine ⟨prev, ?_⟩
      simp only [paramsTailTokens, List.foldr_nil, List.nil_append, paramsLoop,
        accept_stOf_notkind "," prev suffix hsuf, List.append_nil, except_pure]
  | cons s l' ih =>
    intro f acc prev suffix hf hsuf
    cases f with
    | zero => omega
    | succ f =>
      obtain ⟨p', hp'⟩ := ih f (acc ++ [s]) (some (idTok s)) suffix
        (by simp only [List.length_cons] at hf; omega) hsuf
      refine ⟨p', ?_⟩
      have hstream : paramsTailTokens (s :: l') ++ suffix
          = symTok "," :: idTok s :: (paramsTailTokens l' ++ suffix) := by
        simp [paramsTailTokens]
      rw [hstream]
      simp only [paramsLoop, accept_sym, expect_id, except_bind_ok, tokStr_id]
      rw [hp']
      simp

theorem parseParams_complete (p1 : String) (l : List String) (f : Nat)
    (prev : Option Token) (suffix : List Token)
    (hf : l.length + 1 ≤ f)
    (hsuf : ∀ t, suffix.head? = some t → t.kind ≠ ",") :
    ∃ p', parseParams f (stOf prev (idTok p1 :: (paramsTailTokens l ++ suffix)))
      = .ok (p1 :: l, stOf p' suffix) := by
  obtain ⟨p', hp'⟩ := paramsLoop_complete l f [p1] (some (idTok p1)) suffix hf hsuf
  refine ⟨p', ?_⟩
  simp only [parseParams, expect_id, except_bind_ok, tokStr_id]
  rw [hp']
  simp

theorem netVal_eq (kw : NetKw) (d : Option (Nat × Nat)) (nm : String) :
    netVal ⟨kw, d, nm⟩ = ⟨kw.str, nm, (dimsVal d).1, (dimsVal d).2⟩ := by
  cases d with
  | none => rfl
  | some dd => obtain ⟨m, l⟩ := dd; rfl

theorem netsLoop_complete :
    ∀ (l : List SynNet) (f : Nat) (acc : List Net) (prev : Option Token)
      (suffix : List Token),
      l.length + 1 ≤ f →
      (∀ t, suffix.head? = some t →
        t.kind ≠ "output" ∧ t.kind ≠ "input" ∧ t.kind ≠ "wire") →
      ∃ p', netsLoop f (stOf prev (netsTokens l ++ suffix)) acc
        = .ok (acc ++ l.map netVal, stOf p' suffix) := by
  intro l
  induction l with
  | nil =>
    intro f acc prev suffix hf hsuf
    cases f with
    | zero => omega
    | succ f =>
      refine ⟨prev, ?_⟩
      have h1 := accept_stOf_notkind "output" prev suffix (fun t ht => (hsuf t ht).1)
      have h2 := accept_stOf_notkind "input" prev suffix (fun t ht => (hsuf t ht).2.1)
      have h3 := accept_stOf_notkind "wire" prev suffix (fun t ht => (hsuf t ht).2.2)
      simp [netsTokens, netsLoop, h1, h2, h3]
  | cons n l' ih =>
    intro f acc prev suffix hf hsuf
    obtain ⟨kw, dims, nname⟩ := n
    cases f with
    | zero => omega
    | succ f =>
      obtain ⟨pD, hD⟩ := parseDims_complete dims (some (symTok kw.str))
        (idTok nname :: symTok ";" :: (netsTokens l' ++ suffix))
        (by intro t ht; cases ht; simp [idTok])
      obtain ⟨p', hp'⟩ := ih f (acc ++ [netVal ⟨kw, dims, nname⟩]) (some (symTok ";"))
        suffix (by simp only [List.length_cons] at hf; omega) hsuf
      rw [netVal_eq] at hp'
      refine ⟨p', ?_⟩
      have hstream : netsTokens (⟨kw, dims, nname⟩ :: l') ++ suffix
          = symTok kw.str ::
            (dimsTokens dims ++ (idTok nname :: symTok ";" :: (netsTokens l' ++ suffix))) := by
        simp [netsTokens, netTokens, List.append_assoc]
      rw [hstream]
      have hfinish : ∀ st3 : PState,
          st3 = stOf (some (symTok kw.str))
            (dimsTokens dims ++ (idTok nname :: symTok ";" :: (netsTokens l' ++ suffix))) →
          (do
            let kind := tokKind st3
            let ((msb, lsb), st4) ← parseDims st3
            let st5 ← expect "IDENTIFIER" st4
            let nname2 := tokStr st5
            let st6 ← expect ";" st5
            netsLoop f st6 (acc ++ [⟨kind, nname2, msb, lsb⟩]))
            = Except.ok (acc ++ List.map netVal (⟨kw, dims, nname⟩ :: l'), stOf p' suffix) := by
        intro st3 h3
        subst h3
        obtain ⟨dm, dl⟩ := dimsVal dims
        simp only [tokKind_sym, hD, except_bind_ok, expect_id, expect_sym, tokStr_id]
        rw [hp']
        simp [netVal_eq]
      cases kw with
      | output =>
        simp only [netsLoop, NetKw.str, accept_sym]
        exact hfinish _ rfl
      | input =>
        simp only [netsLoop, NetKw.str,
          accept_cons_neg prev _ (show (symTok "input").kind ≠ "output" by decide),
          accept_sym]
        exact hfinish _ rfl
      | wire =>
        simp only [netsLoop, NetKw.str,
          accept_cons_neg prev _ (show (symTok "wire").kind ≠ "output" by decide),
          accept_cons_neg prev _ (show (symTok "wire").kind ≠ "input" by decide),
          accept_sym]
        exact hfinish _ rfl

theorem instsHead (insts : List SynInst) (rest : List Token) :
    ∀ t, (instsTokens insts ++ symTok "endmodule" :: rest).head? = some t →
      t.kind = "IDENTIFIER" ∨ t.kind = "endmodule" := by
  cases insts with
  | nil =>
    intro t ht
    simp only [instsTokens, List.foldr_nil, List.nil_append, List.head?_cons] at ht
    cases ht
    right
    rfl
  | cons i l =>
    intro t ht
    simp only [instsTokens, List.foldr_cons, instTokens, List.cons_append,
      List.head?_cons] at ht
    cases ht
    left
    rfl

theorem fileLoop_complete :
    ∀ (F : List SynModule) (f : Nat) (acc : List Module) (prev : Option Token)
      (suffix : List Token),
      fileSize F + 1 ≤ f →
      (∀ t, suffix.head? = some t → t.kind ≠ "module") →
      ∃ p', fileLoop f (stOf prev (fileTokens F ++ suffix)) acc
        = .ok (acc ++ fileVal F, stOf p' suffix) := by
  intro F
  induction F with
  | nil =>
    intro f acc prev suffix hf hsuf
    cases f with
    | zero => omega
    | succ f =>
      refine ⟨prev, ?_⟩
      simp only [fileTokens, List.foldr_nil, List.nil_append, fileLoop,
        accept_stOf_notkind "module" prev suffix hsuf, fileVal, List.map_nil,
        List.append_nil, except_pure]
  | cons m F' ih =>
    intro f acc prev suffix hf hsuf
    obtain ⟨mn, p1, ps, ns, is⟩ := m
    cases f with
    | zero => omega
    | succ f =>
      simp only [fileSize, List.foldr_cons] at hf
      have hmsz : moduleSize ⟨mn, p1, ps, ns, is⟩
          = ps.length + 1 + ns.length + instsSize is + 1 := by
        simp [moduleSize, paramsSize]
      rw [hmsz] at hf
      have hF' : fileSize F' + 1 ≤ f := by simp only [fileSize]; omega
      have hps : ps.length + 1 ≤ f := by omega
      have hns : ns.length + 1 ≤ f := by omega
      have his : instsSize is + 1 ≤ f := by omega
      obtain ⟨pP, hP⟩ := parseParams_complete p1 ps f (some (symTok "("))
        (symTok ")" :: symTok ";" ::
          (netsTokens ns ++ (instsTokens is ++
            (symTok "endmodule" :: (fileTokens F' ++ suffix))))) hps
        (by intro t ht; cases ht; decide)
      obtain ⟨pN, hN⟩ := netsLoop_complete ns f [] (some (symTok ";"))
        (instsTokens is ++ (symTok "endmodule" :: (fileTokens F' ++ suffix))) hns
        (by
          intro t ht
          rcases instsHead is (fileTokens F' ++ suffix) t ht with h | h <;>
            rw [h] <;> exact ⟨by decide, by decide, by decide⟩)
      obtain ⟨pI, hI⟩ := instLoop_complete is f [] pN
        (symTok "endmodule" :: (fileTokens F' ++ suffix)) his
        (by intro t ht; cases ht; decide)
      obtain ⟨p', hp'⟩ := ih f (acc ++ [moduleVal ⟨mn, p1, ps, ns, is⟩])
        (some (symTok "endmodule")) suffix hF' hsuf
      refine ⟨p', ?_⟩
      have hstream : fileTokens (⟨mn, p1, ps, ns, is⟩ :: F') ++ suffix
          = symTok "module" :: idTok mn :: symTok "(" :: idTok p1 ::
            (paramsTailTokens ps ++ (symTok ")" :: symTok ";" ::
              (netsTokens ns ++ (instsTokens is ++
                (symTok "endmodule" :: (fileTokens F' ++ suffix)))))) := by
        simp [fileTokens, moduleTokens, List.append_assoc]
      rw [hstream]
      simp only [fileLoop, accept_sym, expect_id, expect_sym, except_bind_ok,
        tokStr_id]
      rw [hP]
      simp only [except_bind_ok, expect_sym]
      rw [hN]
      simp only [except_bind_ok, List.nil_append]
      rw [hI]
      simp only [except_bind_ok, List.nil_append, expect_sym]
      simp only [moduleVal] at hp'
      rw [hp']
      simp [fileVal, moduleVal]

theorem argsTailTokens_len (l : List SynArg) :
    l.length ≤ (argsTailTokens l).length := by
  induction l with
  | nil => simp [argsTailTokens]
  | cons a l ih =>
    simp only [argsTailTokens, List.foldr_cons, List.length_cons,
      List.length_append] at ih ⊢
    omega

theorem argTokens_len (a : SynArg) : 5 ≤ (argTokens a).length := by
  obtain ⟨p, ar, sel⟩ := a
  rcases sel with _ | ⟨m, _ | l⟩ <;> simp [argTokens, selTokens]

theorem instsTokens_len (l : List SynInst) :
    instsSize l ≤ (instsTokens l).length := by
  induction l with
  | nil => simp [instsSize, instsTokens]
  | cons i l ih =>
    have h1 := argsTailTokens_len i.args
    have h2 := argTokens_len i.arg1
    simp only [instsSize, instsTokens, List.foldr_cons, instTokens, argsSize,
      List.length_append, List.length_cons] at ih ⊢
    omega

theorem netsTokens_len (l : List SynNet) :
    l.length ≤ (netsTokens l).length := by
  induction l with
  | nil => simp [netsTokens]
  | cons n l ih =>
    simp only [netsTokens, List.foldr_cons, netTokens, List.length_cons,
      List.length_append] at ih ⊢
    omega

theorem paramsTailTokens_len (l : List String) :
    l.length ≤ (paramsTailTokens l).length := by
  induction l with
  | nil => simp [paramsTailTokens]
  | cons s l ih =>
    simp only [paramsTailTokens, List.foldr_cons, List.length_cons] at ih ⊢
    omega

theorem moduleTokens_len (m : SynModule) :
    moduleSize m + 1 ≤ (moduleTokens m).length := by
  obtain ⟨mn, p1, ps, ns, is⟩ := m
  have h1 := paramsTailTokens_len ps
  have h2 := netsTokens_len ns
  have h3 := instsTokens_len is
  simp only [moduleSize, paramsSize, moduleTokens, List.length_cons,
    List.length_append]
  omega

theorem fileTokens_len (F : List SynModule) :
    fileSize F ≤ (fileTokens F).length := by
  induction F with
  | nil => simp [fileSize, fileTokens]
  | cons m F ih =>
    have h1 := moduleTokens_len m
    simp only [fileSize, fileTokens, List.foldr_cons, List.length_append] at ih ⊢
    omega

theorem parseTokens_complete (F : List SynModule) :
    parseTokens (fileTokens F) = .ok ⟨fileVal F⟩ := by
  obtain ⟨p', hp'⟩ := fileLoop_complete F ((fileTokens F).length + 1) [] none []
    (by have := fileTokens_len F; omega) (by intro t ht; cases ht)
  rw [List.append_nil] at hp'
  simp only [parseTokens]
  have hst : (⟨none, (fileTokens F).head?, (fileTokens F).tail⟩ : PState)
      = stOf none (fileTokens F) := rfl
  rw [hst, hp']
  simp [stOf]

theorem parseTokens_trailing (F : List SynModule) (t : Token) (rest : List Token)
    (ht : t.kind ≠ "module") :
    parseTokens (fileTokens F ++ t :: rest) = .error .trailing := by
  obtain ⟨p', hp'⟩ := fileLoop_complete F ((fileTokens F ++ t :: rest).length + 1)
    [] none (t :: rest)
    (by have := fileTokens_len F; simp only [List.length_append]; omega)
    (by intro u hu; cases hu; exact ht)
  simp only [parseTokens]
  have hst : (⟨none, (fileTokens F ++ t :: rest).head?,
      (fileTokens F ++ t :: rest).tail⟩ : PState)
      = stOf none (fileTokens F ++ t :: rest) := rfl
  rw [hst, hp']
  simp [stOf]

/-! ## Claim C7 -/

/-- C7: after the top-level module loop, the cursor's lookahead must be
end-of-stream or parsing fails: if tokens remain after the loop (first
leftover token not starting a module), `parse` raises the trailing-input
`SyntaxError`; and for every well-formed token stream — one derived from
the grammar — parsing consumes every token, reaches end-of-stream, and
returns the Design without error. -/
theorem c7_wellformed_parse :
    (∀ F : List SynModule, parseTokens (fileTokens F) = .ok ⟨fileVal F⟩) ∧
    (∀ (F : List SynModule) (t : Token) (rest : List Token), t.kind ≠ "module" →
      parseTokens (fileTokens F ++ t :: rest) = .error .trailing) :=
  ⟨parseTokens_complete, parseTokens_trailing⟩

/-- C7 witness: a concrete one-module stream parses to its Design, and
the same stream with a stray `;` appended is a syntax error. -/
theorem c7_witness :
    parseTokens (fileTokens [⟨"m", "a", [], [], []⟩])
      = .ok ⟨fileVal [⟨"m", "a", [], [], []⟩]⟩ ∧
    (symTok ";").kind ≠ "module" ∧
    parseTokens (fileTokens [⟨"m", "a", [], [], []⟩] ++ symTok ";" :: [])
      = .error .trailing :=
  ⟨c7_wellformed_parse.1 [⟨"m", "a", [], [], []⟩], by decide,
    c7_wellformed_parse.2 [⟨"m", "a", [], [], []⟩] (symTok ";") [] (by decide)⟩

/-! ## Claim C9 -/

theorem find_in_append {α : Type} (p : α → Bool) :
    ∀ l₁ l₂ : List α, (l₁ ++ l₂).find? p
      = match l₁.find? p with
        | some x => some x
        | none => l₂.find? p := by
  intro l₁
  induction l₁ with
  | nil => intro l₂; simp
  | cons a l ih =>
    intro l₂
    simp only [List.cons_append, List.find?]
    cases hpa : p a with
    | false => simp only [hpa]; exact ih l₂
    | true => simp only [hpa]

/-- The dict comprehension keeps, for each name, the module inserted
last: lookup agrees with searching the reversed insertion list. -/
theorem dictGet_eq_reverse_find (mods : List Module) (n : String) :
    dictGet mods n = mods.reverse.find? (fun M => M.name == n) := by
  induction mods with
  | nil => rfl
  | cons M rest ih =>
    simp only [dictGet, List.reverse_cons]
    rw [find_in_append, ← ih]
    cases hd : dictGet rest n with
    | some M' => rfl
    | none =>
      simp only [List.find?]
      by_cases hp : M.name = n
      · have hb : (M.name == n) = true := by simp [hp]
        simp [hb, hp]
      · have hb : (M.name == n) = false := by simp [hp]
        simp [hb, hp]

/-- C9: a source with two or more same-named module definitions parses
without error, and the Design's mapping resolves that name to the module
defined last in the token stream (`{module.name: module for ...}` lets a
later entry overwrite an earlier one); earlier same-named definitions
are silently discarded from lookup. -/
theorem c9_duplicate_last_wins (F : List SynModule) (n : String) :
    parseTokens (fileTokens F) = .ok ⟨fileVal F⟩ ∧
    dictGet (fileVal F) n = (fileVal F).reverse.find? (fun M => M.name == n) :=
  ⟨parseTokens_complete F, dictGet_eq_reverse_find (fileVal F) n⟩
